import Mathlib

/-!
Formal model of the citation-graph backend (research-engine-backend).

The authoritative source for the graph-construction engine is the frontier
expansion module (`src/unnamed/part_001`, the current `graph.js`): it defines
`clampInteger`, `sortByInfluence`, `isTemporallyConsistent`,
`isLinkTemporallyConsistent`, `parseGraphParams` and the multi-level
`buildGraph` with its nested helpers `addNode`, `addLink`, `getTopReferences`,
`getTopCitations`, `getWorkOrFetch` and `expandSide`.  The identifier
normalizer `normalizeId`/`toOpenAlexId` and the provider interface
(`getWorkById`, `getWorksByIds`, `getCitingWorks`) come from
`src/openalex.js`; the error-to-status mapping comes from the `/graph`
route of `index.js`.

Modelling conventions:
* JS `Map` objects are modelled as association lists (`AList` operations
  below).  `Map.set` on an existing key updates the value in place and keeps
  the original insertion position; `[...map.values()]` enumerates values in
  insertion order.  Both behaviours are reproduced exactly.
* A work's `year` is `Int`-or-`null` (`Option Int`), exactly the values
  `normalizeWork` produces (`publication_year || null`).  The JS coercion
  `Number(year)` maps `null` to `0` (and an integer to itself), so it is
  modelled by `Option.getD · 0`; `Number.isFinite` of that coercion is
  always `true` on this domain, which is why the unknown-year guard of the
  source's `isTemporallyConsistent` has no corresponding branch here.
* `Array.prototype.sort` with a consistent comparator is a stable sort; it
  is modelled by a structurally recursive stable insertion sort
  (`stableSort`), which produces the same list as any stable sort for a
  total preorder.
* `a.id.localeCompare(b.id)` and the string comparison
  `entry.parent.id < existing.parent.id` are modelled with an explicit
  code-point lexicographic order (`charListLt`, `strLt`, `strLe`); these
  agree with the JS comparisons on the ASCII identifiers the system
  manipulates.
* The external provider is a parameter (`Provider`): three pure functions
  with the signatures of the adapter's exports.  Each provider call is
  recorded in a trace (`FetchEvent`), which models "network fetches".
* The two concurrent sides (`references`, `cited_by`) of `buildGraph` are
  modelled by running one side to completion and then the other; the
  `Schedule` parameter says which side completes first.  Both orders are
  realizable completions of the source's `Promise.all`.  Within a level the
  source collects results with `Promise.all`, which preserves input order,
  so per-level work is order-independent and modelled by a fold.
* The node attribute `size` (`computeNodeSize`) is a floating-point
  rendering value derived from `cited_by_count` alone; floating point is
  not modelled, and no claim refers to `size`.  All other node fields are
  modelled.
-/

/-! ## Association lists modelling JS `Map` -/

def alookup {α : Type} (m : List (String × α)) (k : String) : Option α :=
  match m with
  | [] => none
  | (k₀, v₀) :: rest => if k₀ = k then some v₀ else alookup rest k

/-- `Map.set`: update in place when the key exists (keeping its insertion
position), otherwise append at the end. -/
def aset {α : Type} (m : List (String × α)) (k : String) (v : α) :
    List (String × α) :=
  match m with
  | [] => [(k, v)]
  | (k₀, v₀) :: rest =>
      if k₀ = k then (k₀, v) :: rest else (k₀, v₀) :: aset rest k v

def avalues {α : Type} (m : List (String × α)) : List α := m.map (·.2)

def akeys {α : Type} (m : List (String × α)) : List String := m.map (·.1)

/-! ## Stable sort modelling `Array.prototype.sort` -/

def ordInsert {α : Type} (le : α → α → Bool) (x : α) : List α → List α
  | [] => [x]
  | y :: l => if le x y then x :: y :: l else y :: ordInsert le x l

def stableSort {α : Type} (le : α → α → Bool) : List α → List α
  | [] => []
  | x :: l => ordInsert le x (stableSort le l)

theorem ordInsert_perm {α : Type} (le : α → α → Bool) (x : α) (l : List α) :
    List.Perm (ordInsert le x l) (x :: l) := by
  induction l with
  | nil => simp [ordInsert]
  | cons y l ih =>
      simp only [ordInsert]
      by_cases h : le x y = true
      · simp [h]
      · simp only [h]
        exact List.Perm.trans (List.Perm.cons y ih) (List.Perm.swap x y l)

theorem stableSort_perm {α : Type} (le : α → α → Bool) (l : List α) :
    List.Perm (stableSort le l) l := by
  induction l with
  | nil => simp [stableSort]
  | cons x l ih =>
      exact List.Perm.trans (ordInsert_perm le x (stableSort le l))
        (List.Perm.cons x ih)

theorem ordInsert_pairwise {α : Type} (le : α → α → Bool)
    (htrans : ∀ a b c, le a b = true → le b c = true → le a c = true)
    (htotal : ∀ a b, le a b = true ∨ le b a = true)
    (x : α) (l : List α)
    (hl : List.Pairwise (fun a b => le a b = true) l) :
    List.Pairwise (fun a b => le a b = true) (ordInsert le x l) := by
  induction l with
  | nil => simp [ordInsert]
  | cons y l ih =>
      simp only [ordInsert]
      rcases List.pairwise_cons.mp hl with ⟨hy, hl'⟩
      by_cases h : le x y = true
      · simp only [h, if_true]
        refine List.pairwise_cons.mpr ⟨?_, hl⟩
        intro z hz
        rcases List.mem_cons.mp hz with hz | hz
        · exact hz ▸ h
        · exact htrans x y z h (hy z hz)
      · simp only [h, if_false]
        refine List.pairwise_cons.mpr ⟨?_, ih hl'⟩
        intro z hz
        have hz' := (ordInsert_perm le x l).mem_iff.mp hz
        rcases List.mem_cons.mp hz' with hz2 | hz2
        · rcases htotal x y with hxy | hyx
          · exact absurd hxy h
          · exact hz2 ▸ hyx
        · exact hy z hz2

theorem stableSort_pairwise {α : Type} (le : α → α → Bool)
    (htrans : ∀ a b c, le a b = true → le b c = true → le a c = true)
    (htotal : ∀ a b, le a b = true ∨ le b a = true)
    (l : List α) :
    List.Pairwise (fun a b => le a b = true) (stableSort le l) := by
  induction l with
  | nil => simp [stableSort]
  | cons x l ih => exact ordInsert_pairwise le htrans htotal x (stableSort le l) ih

/-! ## Data model -/

/-- Canonical work record, the shape produced by `normalizeWork` in
`openalex.js` (the floating-point-free fields). -/
structure Work where
  id : String
  title : String
  year : Option Int
  cited_by_count : Int
  authors : List String
  venue : String
  openalex_url : String
  referenced_works : List String
  doi : Option String
  deriving Repr, DecidableEq, Inhabited

inductive Side where
  | center
  | backward
  | forward
  | both
  deriving Repr, DecidableEq, Inhabited

inductive LinkType where
  | references
  | cited_by
  deriving Repr, DecidableEq, Inhabited

inductive Direction where
  | backward
  | forward
  deriving Repr, DecidableEq, Inhabited

/-- Graph node produced by `addNode` (without the floating-point `size`
attribute; see the header comment). -/
structure GraphNode where
  id : String
  title : String
  year : Option Int
  cited_by_count : Int
  authors : List String
  venue : String
  openalex_url : String
  side : Side
  depth : Nat
  deriving Repr, DecidableEq, Inhabited

structure GraphLink where
  source : String
  target : String
  type : LinkType
  direction : Direction
  deriving Repr, DecidableEq, Inhabited

structure GraphMeta where
  centerWorkId : String
  depth : Int
  limit : Int
  deriving Repr, DecidableEq, Inhabited

structure GraphOutput where
  meta : GraphMeta
  nodes : List GraphNode
  links : List GraphLink
  deriving Repr, DecidableEq, Inhabited

/-- The keys of the JSON object literal returned as `meta` by `buildGraph`
(source lines 251-255 of the frontier expansion module). -/
def graphMetaKeys : List String := ["centerWorkId", "depth", "limit"]

/-- Classified failures of `buildGraph` (`error.cause` values), plus the
generic upstream failure that carries no cause. -/
inductive BuildErr where
  | badWorkId
  | notFound
  | upstream
  deriving Repr, DecidableEq

/-- The `/graph` route of `index.js` maps classified errors to HTTP statuses:
`BAD_WORK_ID` to 400, `NOT_FOUND` to 404 and anything else to 502. -/
def graphStatus : BuildErr → Nat
  | .badWorkId => 400
  | .notFound => 404
  | .upstream => 502

/-! ## `clampInteger` / `parseGraphParams` -/

def isJsSpace (c : Char) : Bool :=
  c = ' ' ∨ c = '\t' ∨ c = '\n' ∨ c = '\r'

/-- `Number.parseInt(value, 10)` on a string-or-undefined input: skip leading
whitespace, optional sign, then the longest digit prefix; no digits means
`NaN`, modelled as `none`. -/
def jsParseInt (value : Option String) : Option Int :=
  match value with
  | none => none
  | some s =>
      let cs := s.toList.dropWhile isJsSpace
      let signedDigits :=
        match cs with
        | '-' :: rest => (true, rest.takeWhile Char.isDigit)
        | '+' :: rest => (false, rest.takeWhile Char.isDigit)
        | _ => (false, cs.takeWhile Char.isDigit)
      match signedDigits with
      | (neg, ds) =>
          if ds.isEmpty then none
          else
            let n : Int := ds.foldl (fun acc c => acc * 10 + (c.toNat - '0'.toNat)) 0
            some (if neg then -n else n)

def clampInteger (value : Option String) (lo hi fallback : Int) : Int :=
  match jsParseInt value with
  | none => fallback
  | some parsed => min hi (max lo parsed)

def parseGraphParams (depth limit : Option String) : Int × Int :=
  (clampInteger depth 1 3 2, clampInteger limit 1 30 20)

/-! ## `normalizeId` / `toOpenAlexId` (openalex.js)

The regex `/(?:openalex\.org\/|works\/)?(W\d{4,})/i` matched against the
trimmed input: the captured group of the leftmost match is always the
leftmost occurrence of `[Ww]` followed by at least four digits (with the
greedy digit run), since the leading alternatives are optional and do not
change the group.  The group is upper-cased and prefixed.
-/

def scanWorkId : List Char → Option String
  | [] => none
  | c :: rest =>
      if c = 'W' ∨ c = 'w' then
        let ds := rest.takeWhile Char.isDigit
        if 4 ≤ ds.length then some (String.mk ('W' :: ds)) else scanWorkId rest
      else scanWorkId rest

def jsTrim (s : String) : String :=
  String.mk (((s.toList.dropWhile isJsSpace).reverse.dropWhile isJsSpace).reverse)

def normalizeId (id : String) : Option String :=
  (scanWorkId (jsTrim id).toList).map (fun w => "https://openalex.org/" ++ w)

def toOpenAlexId (value : String) : Option String := normalizeId value

/-! ## Pure comparators of the frontier expansion module -/

/-- `Number(year)` for an int-or-null year: `Number(null)` is `0`. -/
def jsNumOfYear (y : Option Int) : Int := y.getD 0

/-- `isTemporallyConsistent` of the frontier expansion module.  On the
int-or-null year domain `Number(year)` is always finite (`Number(null) = 0`),
so the source's `Number.isFinite` guard never fires and has no branch here;
a `null` year takes part in the comparison as `0`. -/
def isTemporallyConsistent (parentYear childYear : Option Int)
    (side : LinkType) : Bool :=
  let p := jsNumOfYear parentYear
  let c := jsNumOfYear childYear
  match side with
  | .references => c ≤ p
  | .cited_by => p ≤ c

/-- The temporal rule as the specification words it: if either year is
unknown the candidate is accepted ("treated permissively"); otherwise
`references` requires `child ≤ parent` and `cited_by` requires
`child ≥ parent`.  Kept separate from the source translation above to
compare the two. -/
def isTemporallyConsistentSpec (parentYear childYear : Option Int)
    (side : LinkType) : Bool :=
  match parentYear, childYear with
  | some p, some c =>
      match side with
      | .references => c ≤ p
      | .cited_by => p ≤ c
  | _, _ => true

/-! ## String comparison

JS `<` on strings and `localeCompare` (on the same-alphabet canonical ids
the system manipulates) are code-unit/code-point lexicographic comparisons;
they are modelled by an explicit lexicographic order on the character
lists. -/

def charListLt : List Char → List Char → Bool
  | [], [] => false
  | [], _ :: _ => true
  | _ :: _, [] => false
  | a :: as, b :: bs =>
      if a < b then true else if b < a then false else charListLt as bs

/-- JS string `<` (code-point lexicographic). -/
def strLt (a b : String) : Bool := charListLt a.toList b.toList

/-- `a.localeCompare(b) <= 0`, modelled as code-point lexicographic order. -/
def strLe (a b : String) : Bool := !(strLt b a)

/-- `sortByInfluence`'s comparator in the frontier expansion module, as the
"comes no later than" relation of the sort: `cited_by_count` descending,
then id ascending.  No other field takes part. -/
def influenceLE (a b : Work) : Bool :=
  decide (b.cited_by_count < a.cited_by_count) ||
    (decide (a.cited_by_count = b.cited_by_count) && strLe a.id b.id)

def sortByInfluence (works : List Work) : List Work :=
  stableSort influenceLE works

/-! ## Provider interface, fetch trace and build state -/

/-- The metadata-source adapter's exports consumed by the engine
(`getWorkById`, `getWorksByIds`, `getCitingWorks`), as pure functions: the
model of one fixed upstream data set plus adapter.  Nothing forces the three
functions to agree about a work id; consistency, where needed, is an
explicit hypothesis. -/
structure Provider where
  getWorkById : String → Option Work
  getWorksByIds : List String → List Work
  getCitingWorks : String → Int → List Work

/-- One network fetch issued through the adapter. -/
inductive FetchEvent where
  | byId (id : String)
  | byIds (ids : List String)
  | citers (id : String) (limit : Int)
  deriving Repr, DecidableEq

/-- The per-request mutable state of `buildGraph`: `nodeMap`, `linkMap`,
`workCache` (all JS `Map`s) and the fetch trace. -/
structure BuildState where
  nodeMap : List (String × GraphNode)
  linkMap : List (String × GraphLink)
  workCache : List (String × Work)
  trace : List FetchEvent
  deriving Repr, DecidableEq

def cacheWork (w : Work) (st : BuildState) : BuildState :=
  if w.id = "" then st
  else { st with workCache := aset st.workCache w.id w }

def nodeOfWork (w : Work) (side : Side) (nodeDepth : Nat) : GraphNode :=
  { id := w.id, title := w.title, year := w.year,
    cited_by_count := w.cited_by_count, authors := w.authors,
    venue := w.venue, openalex_url := w.openalex_url,
    side := side, depth := nodeDepth }

/-- The side-merge conditional of `addNode`: keep the existing side when it
equals the new one or is `center`; a new `center` wins; otherwise `both`. -/
def mergeSide (existing side : Side) : Side :=
  if existing = side ∨ existing = .center then existing
  else if side = .center then .center
  else .both

/-- `addNode`: cache the work, then insert or merge the node record.  On a
merge, all work-derived fields are taken from the new record (the source
spreads `next` over `existing`) while `side` is merged and `depth` is the
minimum. -/
def addNode (w : Work) (side : Side) (nodeDepth : Nat) (st : BuildState) :
    BuildState :=
  let st1 := cacheWork w st
  let next := nodeOfWork w side nodeDepth
  match alookup st1.nodeMap w.id with
  | none => { st1 with nodeMap := aset st1.nodeMap w.id next }
  | some existing =>
      let merged := { next with side := mergeSide existing.side side,
                                depth := min existing.depth nodeDepth }
      { st1 with nodeMap := aset st1.nodeMap w.id merged }

def linkTypeStr : LinkType → String
  | .references => "references"
  | .cited_by => "cited_by"

def linkKey (source target : String) (type : LinkType) : String :=
  source ++ "->" ++ target ++ ":" ++ linkTypeStr type

/-- `addLink`: keyed by `source->target:type`; the first insertion wins. -/
def addLink (source target : String) (type : LinkType)
    (direction : Direction) (st : BuildState) : BuildState :=
  let key := linkKey source target type
  match alookup st.linkMap key with
  | some _ => st
  | none =>
      let link : GraphLink :=
        { source := source, target := target, type := type,
          direction := direction }
      { st with linkMap := aset st.linkMap key link }

/-! ## Child-candidate selection -/

def REFERENCE_CANDIDATE_CAP : Nat := 200

/-- `getTopReferences`: no fetch when the reference list is empty; otherwise
batch-fetch the first 200 candidate ids, re-order the hits by the parent's
original reference order, and keep the top `sideLimit` by influence. -/
def getTopReferences (p : Provider) (parent : Work) (sideLimit : Nat)
    (st : BuildState) : List Work × BuildState :=
  let refs := parent.referenced_works
  if refs.isEmpty then ([], st)
  else
    let candidates := refs.take REFERENCE_CANDIDATE_CAP
    let works := p.getWorksByIds candidates
    let st1 := { st with trace := st.trace ++ [.byIds candidates] }
    let worksById := works.foldl (fun m w => aset m w.id w) []
    let ordered := refs.filterMap (fun id => alookup worksById id)
    ((sortByInfluence ordered).take sideLimit, st1)

/-- `getTopCitations`: fetch up to `min(100, sideLimit*3)` citers, keep the
top `sideLimit` by influence. -/
def getTopCitations (p : Provider) (parentId : String) (sideLimit : Nat)
    (st : BuildState) : List Work × BuildState :=
  let lim : Int := min 100 ((sideLimit : Int) * 3)
  let rows := p.getCitingWorks parentId lim
  let st1 := { st with trace := st.trace ++ [.citers parentId lim] }
  ((sortByInfluence rows).take sideLimit, st1)

/-- `getWorkOrFetch`: request-scoped cache in front of `getWorkById`. -/
def getWorkOrFetch (p : Provider) (id : String) (st : BuildState) :
    Option Work × BuildState :=
  match alookup st.workCache id with
  | some w => (some w, st)
  | none =>
      let st1 := { st with trace := st.trace ++ [.byId id] }
      match p.getWorkById id with
      | some w => (some w, cacheWork w st1)
      | none => (none, st1)

/-! ## Frontier expansion -/

structure PCPair where
  parent : Work
  child : Work
  deriving Repr, DecidableEq

def sideTag : LinkType → Side
  | .references => .backward
  | .cited_by => .forward

def dirTag : LinkType → Direction
  | .references => .backward
  | .cited_by => .forward

/-- One frontier member's contribution to a level: fetch the parent (absent
parent contributes nothing), fetch and rank its candidate children, then
apply the temporal-consistency filter per candidate. -/
def expandParent (p : Provider) (side : LinkType) (ppl : Nat) (pid : String)
    (st : BuildState) : List PCPair × BuildState :=
  match getWorkOrFetch p pid st with
  | (none, st1) => ([], st1)
  | (some parent, st1) =>
      let cs :=
        match side with
        | .references => getTopReferences p parent ppl st1
        | .cited_by => getTopCitations p parent.id ppl st1
      let filtered := cs.1.filter
        (fun child => isTemporallyConsistent parent.year child.year side)
      (filtered.map (fun child => ⟨parent, child⟩), cs.2)

/-- All frontier members' contributions, concatenated in frontier order
(the source's `Promise.all` keeps input order). -/
def collectPairs (p : Provider) (side : LinkType) (ppl : Nat) :
    List String → BuildState → List PCPair × BuildState
  | [], st => ([], st)
  | pid :: rest, st =>
      let pr := expandParent p side ppl pid st
      let more := collectPairs p side ppl rest pr.2
      (pr.1 ++ more.1, more.2)

/-- The per-child dedup step: first pair for a child wins unless a later
pair has a strictly lower parent id. -/
def dedupStep (m : List (String × PCPair)) (e : PCPair) :
    List (String × PCPair) :=
  match alookup m e.child.id with
  | none => aset m e.child.id e
  | some existing =>
      if strLt e.parent.id existing.parent.id then aset m e.child.id e else m

/-- `uniqueByChild` as a value list, in first-occurrence order of child ids
(JS `Map` iteration order). -/
def uniqueByChild (l : List PCPair) : List PCPair :=
  avalues (l.foldl dedupStep [])

/-- The per-level global re-rank comparator: child influence. -/
def pairInfluenceLE (a b : PCPair) : Bool :=
  decide (b.child.cited_by_count < a.child.cited_by_count) ||
    (decide (a.child.cited_by_count = b.child.cited_by_count) &&
      strLe a.child.id b.child.id)

/-- The accept loop of a level: for each surviving pair, `addNode` the child
then `addLink` the parent-child edge. -/
def acceptPairs (side : LinkType) (level : Nat) (limited : List PCPair)
    (st : BuildState) : BuildState :=
  limited.foldl
    (fun st1 pr =>
      addLink pr.parent.id pr.child.id side (dirTag side)
        (addNode pr.child (sideTag side) level st1)) st

/-- JS `Set` content in insertion order (first occurrence kept). -/
def setDedup (l : List String) : List String :=
  l.foldl (fun acc x => if x ∈ acc then acc else acc ++ [x]) []

/-- The level loop of `expandSide`: `rem` remaining levels, `level` the
current level number; stops early on an empty frontier. -/
def expandLevels (p : Provider) (side : LinkType) (limit : Nat) :
    Nat → Nat → List String → BuildState → BuildState
  | 0, _, _, st => st
  | rem + 1, level, frontier, st =>
      if frontier.isEmpty then st
      else
        let ppl := max 1 (limit / frontier.length)
        let collected := collectPairs p side ppl frontier st
        let unique := uniqueByChild collected.1
        let limited := (stableSort pairInfluenceLE unique).take limit
        let st1 := acceptPairs side level limited collected.2
        let nextFrontier := setDedup (limited.map (fun pr => pr.child.id))
        expandLevels p side limit rem (level + 1) nextFrontier st1

def expandSide (p : Provider) (centerId : String) (depth limit : Nat)
    (side : LinkType) (st : BuildState) : BuildState :=
  expandLevels p side limit depth 1 [centerId] st

/-! ## Assembly, pruning and the top-level entry point -/

/-- `isLinkTemporallyConsistent`: a link whose endpoint is missing from the
node map is dropped; otherwise the temporal rule is re-checked against the
final node records. -/
def isLinkTemporallyConsistent (link : GraphLink)
    (nodeMap : List (String × GraphNode)) : Bool :=
  match alookup nodeMap link.source, alookup nodeMap link.target with
  | some source, some target =>
      isTemporallyConsistent source.year target.year link.type
  | _, _ => false

def setAdd (acc : List String) (x : String) : List String :=
  if x ∈ acc then acc else acc ++ [x]

/-- The final assembly of `buildGraph`: re-validate every link candidate
against the final node records, then keep the center plus every endpoint of
a surviving link. -/
def assembleOutput (center : Work) (depth limit : Int) (st : BuildState) :
    GraphOutput :=
  let nodes := avalues st.nodeMap
  let linkCandidates := avalues st.linkMap
  let stableNodeMap := nodes.foldl (fun m n => aset m n.id n) []
  let links := linkCandidates.filter
    (fun link => isLinkTemporallyConsistent link stableNodeMap)
  let connectedNodeIds :=
    links.foldl (fun acc link => setAdd (setAdd acc link.source) link.target)
      [center.id]
  let connectedNodes := nodes.filter (fun n => n.id ∈ connectedNodeIds)
  { meta := { centerWorkId := center.id, depth := depth, limit := limit },
    nodes := connectedNodes, links := links }

/-- Which of the two concurrently launched sides completes first.  Both
values are realizable completions of the source's
`Promise.all([expandSide("references"), expandSide("cited_by")])`. -/
inductive Schedule where
  | referencesFirst
  | citationsFirst
  deriving Repr, DecidableEq

/-- The whole expansion phase: seed the node map with the center, then run
the two sides (in the order the schedule names). -/
def runSides (p : Provider) (sched : Schedule) (center : Work)
    (workId : String) (depthN limitN : Nat) : BuildState :=
  let st0 : BuildState :=
    { nodeMap := [], linkMap := [], workCache := [],
      trace := [.byId workId] }
  let st1 := addNode center .center 0 st0
  match sched with
  | .referencesFirst =>
      expandSide p center.id depthN limitN .cited_by
        (expandSide p center.id depthN limitN .references st1)
  | .citationsFirst =>
      expandSide p center.id depthN limitN .references
        (expandSide p center.id depthN limitN .cited_by st1)

/-- `buildGraph`, with the fetch trace: normalize the seed id (classified
failure `badWorkId` before any fetch), clamp the parameters, fetch the
center (classified failure `notFound` after that one lookup), seed the node
map with the center, run both sides, then assemble and prune. -/
def buildGraphT (p : Provider) (sched : Schedule) (workIdInput : String)
    (requestedDepth requestedLimit : Option String) :
    Except BuildErr GraphOutput × List FetchEvent :=
  match toOpenAlexId workIdInput with
  | none => (.error .badWorkId, [])
  | some workId =>
      let dl := parseGraphParams requestedDepth requestedLimit
      match p.getWorkById workId with
      | none => (.error .notFound, [.byId workId])
      | some center =>
          let st2 := runSides p sched center workId dl.1.toNat dl.2.toNat
          (.ok (assembleOutput center dl.1 dl.2 st2), st2.trace)

/-- The result of `buildGraph` without the fetch trace. -/
def buildGraph (p : Provider) (sched : Schedule) (workIdInput : String)
    (requestedDepth requestedLimit : Option String) :
    Except BuildErr GraphOutput :=
  (buildGraphT p sched workIdInput requestedDepth requestedLimit).1

/-! ## Association-list lemmas -/

theorem alookup_aset_self {α : Type} (m : List (String × α)) (k : String)
    (v : α) : alookup (aset m k v) k = some v := by
  induction m with
  | nil => simp [aset, alookup]
  | cons kv rest ih =>
      obtain ⟨k0, v0⟩ := kv
      by_cases h : k0 = k
      · simp [aset, alookup, h]
      · simp [aset, alookup, h, ih]

@[simp] theorem akeys_nil {α : Type} : akeys ([] : List (String × α)) = [] := rfl

@[simp] theorem akeys_cons {α : Type} (k0 : String) (v0 : α)
    (rest : List (String × α)) :
    akeys ((k0, v0) :: rest) = k0 :: akeys rest := rfl

@[simp] theorem avalues_nil {α : Type} : avalues ([] : List (String × α)) = [] := rfl

@[simp] theorem avalues_cons {α : Type} (k0 : String) (v0 : α)
    (rest : List (String × α)) :
    avalues ((k0, v0) :: rest) = v0 :: avalues rest := rfl

theorem alookup_aset_ne {α : Type} (m : List (String × α)) (k k2 : String)
    (v : α) (h : k2 ≠ k) : alookup (aset m k v) k2 = alookup m k2 := by
  induction m with
  | nil => simp [aset, alookup, Ne.symm h]
  | cons kv rest ih =>
      obtain ⟨k0, v0⟩ := kv
      by_cases h0 : k0 = k
      · subst h0
        simp [aset, alookup, Ne.symm h]
      · by_cases h2 : k0 = k2
        · simp [aset, alookup, h0, h2, h]
        · simp [aset, alookup, h0, h2, ih]

theorem akeys_aset_mem {α : Type} (m : List (String × α)) (k : String)
    (v : α) (hk : k ∈ akeys m) : akeys (aset m k v) = akeys m := by
  induction m with
  | nil => simp at hk
  | cons kv rest ih =>
      obtain ⟨k0, v0⟩ := kv
      by_cases h : k0 = k
      · simp [aset, h]
      · have hk2 : k ∈ akeys rest := by
          rcases List.mem_cons.mp (by simpa using hk) with h1 | h1
          · exact absurd h1.symm h
          · exact h1
        simp [aset, h, ih hk2]

theorem akeys_aset_not_mem {α : Type} (m : List (String × α)) (k : String)
    (v : α) (hk : k ∉ akeys m) : akeys (aset m k v) = akeys m ++ [k] := by
  induction m with
  | nil => simp [aset]
  | cons kv rest ih =>
      obtain ⟨k0, v0⟩ := kv
      have hk0 : ¬ k0 = k := by
        intro h
        exact hk (by simp [h])
      have hkr : k ∉ akeys rest := by
        intro h
        exact hk (by simp [h])
      simp [aset, hk0, ih hkr]

theorem nodup_akeys_aset {α : Type} (m : List (String × α)) (k : String)
    (v : α) (h : (akeys m).Nodup) : (akeys (aset m k v)).Nodup := by
  by_cases hk : k ∈ akeys m
  · rw [akeys_aset_mem m k v hk]; exact h
  · rw [akeys_aset_not_mem m k v hk]
    simpa [List.nodup_append] using ⟨h, hk⟩

theorem alookup_eq_none_iff {α : Type} (m : List (String × α)) (k : String) :
    alookup m k = none ↔ k ∉ akeys m := by
  induction m with
  | nil => simp [alookup]
  | cons kv rest ih =>
      obtain ⟨k0, v0⟩ := kv
      by_cases h : k0 = k
      · simp [alookup, h]
      · simp [alookup, h, ih, Ne.symm h]

theorem mem_of_alookup {α : Type} (m : List (String × α)) (k : String)
    (v : α) (h : alookup m k = some v) : (k, v) ∈ m := by
  induction m with
  | nil => simp [alookup] at h
  | cons kv rest ih =>
      obtain ⟨k0, v0⟩ := kv
      by_cases h0 : k0 = k
      · subst h0
        simp [alookup] at h
        simp [h]
      · simp only [alookup, if_neg h0] at h
        exact List.mem_cons_of_mem _ (ih h)

theorem alookup_of_mem {α : Type} (m : List (String × α)) (k : String)
    (v : α) (hnd : (akeys m).Nodup) (hm : (k, v) ∈ m) :
    alookup m k = some v := by
  induction m with
  | nil => simp at hm
  | cons kv rest ih =>
      obtain ⟨k0, v0⟩ := kv
      rcases List.mem_cons.mp hm with h1 | h1
      · obtain ⟨hk, hv⟩ := Prod.mk.injEq .. ▸ h1
        subst hk
        simp [alookup, hv]
      · have hnd2 : (akeys rest).Nodup := (List.nodup_cons.mp (by simpa using hnd)).2
        have hk0 : k0 ∉ akeys rest := (List.nodup_cons.mp (by simpa using hnd)).1
        by_cases h0 : k0 = k
        · subst h0
          have : k0 ∈ akeys rest := by
            have := List.mem_map_of_mem Prod.fst h1
            simpa [akeys] using this
          exact absurd this hk0
        · simp only [alookup, if_neg h0]
          exact ih hnd2 h1

theorem mem_avalues_of_alookup {α : Type} (m : List (String × α))
    (k : String) (v : α) (h : alookup m k = some v) : v ∈ avalues m := by
  have := mem_of_alookup m k v h
  simpa [avalues] using List.mem_map_of_mem Prod.snd this

theorem avalues_mem_iff {α : Type} (m : List (String × α))
    (hnd : (akeys m).Nodup) (v : α) :
    v ∈ avalues m ↔ ∃ k, alookup m k = some v := by
  constructor
  · intro hv
    rcases List.mem_map.mp hv with ⟨⟨k, v0⟩, hkv, hv0⟩
    refine ⟨k, ?_⟩
    rw [show v0 = v from hv0] at hkv
    exact alookup_of_mem m k v hnd hkv
  · rintro ⟨k, hk⟩
    exact mem_avalues_of_alookup m k v hk

theorem foldl_preserves {σ α : Type} (f : σ → α → σ) (P : σ → Prop)
    (h : ∀ s a, P s → P (f s a)) :
    ∀ (l : List α) (s : σ), P s → P (List.foldl f s l) := by
  intro l
  induction l with
  | nil => intro s hs; exact hs
  | cons a l ih => intro s hs; exact ih (f s a) (h s a hs)

/-! ## Success-case elimination for `buildGraphT` -/

theorem buildGraphT_ok_elim (p : Provider) (sched : Schedule) (i : String)
    (d l : Option String) (out : GraphOutput) (tr : List FetchEvent)
    (h : buildGraphT p sched i d l = (.ok out, tr)) :
    ∃ wid center, toOpenAlexId i = some wid ∧
      p.getWorkById wid = some center ∧
      out = assembleOutput center (parseGraphParams d l).1
        (parseGraphParams d l).2
        (runSides p sched center wid (parseGraphParams d l).1.toNat
          (parseGraphParams d l).2.toNat) := by
  unfold buildGraphT at h
  cases hwid : toOpenAlexId i with
  | none => rw [hwid] at h; simp at h
  | some wid =>
      rw [hwid] at h
      dsimp only at h
      cases hc : p.getWorkById wid with
      | none => rw [hc] at h; simp at h
      | some center =>
          rw [hc] at h
          dsimp only at h
          simp only [Prod.mk.injEq, Except.ok.injEq] at h
          exact ⟨wid, center, rfl, hc, h.1.symm⟩

/-! ## Bounds of `clampInteger` -/

theorem clampInteger_bounds (v : Option String) (lo hi fb : Int)
    (hlofb : lo ≤ fb) (hfbhi : fb ≤ hi) (hlohi : lo ≤ hi) :
    lo ≤ clampInteger v lo hi fb ∧ clampInteger v lo hi fb ≤ hi := by
  unfold clampInteger
  cases jsParseInt v with
  | none => exact ⟨hlofb, hfbhi⟩
  | some n =>
      simp only []
      constructor
      · exact le_min hlohi (le_max_left lo n)
      · exact min_le_left hi _

/-! ## Concrete fixtures used by witnesses and counterexamples -/

/-- A work record with the fields the engine inspects; the remaining
normalized fields are filled with fixed values. -/
def mkWork (id : String) (year : Option Int) (cited : Int)
    (refs : List String) : Work :=
  { id := id, title := id, year := year, cited_by_count := cited,
    authors := [], venue := "v", openalex_url := id,
    referenced_works := refs, doi := none }

/-- The canonical form of the seed id `W1000`. -/
def CID : String := "https://openalex.org/W1000"

/-- A provider with no records at all. -/
def pEmpty : Provider :=
  { getWorkById := fun _ => none,
    getWorksByIds := fun _ => [],
    getCitingWorks := fun _ _ => [] }

/-- A provider whose seed work has no references and no citers. -/
def pSmall : Provider :=
  { getWorkById := fun id =>
      if id = CID then some (mkWork CID (some 2000) 7 []) else none,
    getWorksByIds := fun _ => [],
    getCitingWorks := fun _ _ => [] }

/-- A provider whose seed has an unknown (`null`) year and one reference
with a known year: the temporal filter of the source coerces the unknown
year to `0` and rejects the child. -/
def pC1 : Provider :=
  { getWorkById := fun id =>
      if id = CID then some (mkWork CID none 0 ["A"]) else none,
    getWorksByIds := fun ids =>
      if ids = ["A"] then [mkWork "A" (some 1990) 0 []] else [],
    getCitingWorks := fun _ _ => [] }

/-- A provider that reports the work `A` with year 1995 when it is
batch-fetched as a reference, but with year 2005 when it is returned as a
citer: the two fetch channels disagree about the same id. -/
def p8 : Provider :=
  { getWorkById := fun id =>
      if id = CID then some (mkWork CID (some 2000) 0 ["A"]) else none,
    getWorksByIds := fun ids =>
      if ids = ["A"] then [mkWork "A" (some 1995) 0 []] else [],
    getCitingWorks := fun id _ =>
      if id = CID then [mkWork "A" (some 2005) 0 []] else [] }

/-- A provider producing an orphan island: the references chain
`center -> A -> B` coexists with a citation chain that re-reports `A` with
year 3000 (breaking the `center -> A` references link at re-validation) and
re-reports `P` with year 5000 (breaking the `P -> A` citation link), so the
surviving link `A -> B` connects two nodes that are unreachable from the
center. -/
def p2 : Provider :=
  { getWorkById := fun id =>
      if id = CID then some (mkWork CID (some 2000) 0 ["A"]) else none,
    getWorksByIds := fun ids =>
      if ids = ["A"] then [mkWork "A" (some 1995) 0 ["B"]]
      else if ids = ["B"] then [mkWork "B" (some 1990) 0 []]
      else [],
    getCitingWorks := fun id _ =>
      if id = CID then [mkWork "M" (some 2005) 0 [], mkWork "N" (some 2006) 0 []]
      else if id = "M" then [mkWork "P" (some 2010) 0 []]
      else if id = "N" then [mkWork "Q" (some 2011) 0 []]
      else if id = "P" then [mkWork "A" (some 3000) 0 []]
      else if id = "Q" then [mkWork "P" (some 5000) 0 []]
      else [] }

/-! ## Reachability (the specification's pruning rule)

These definitions follow the specification's words — "compute the reachable
set starting from the center node via the surviving links; drop any node not
in that reachable set" — to compare against the source's pruning, which
keeps the center plus every endpoint of a surviving link.  Adjacency is
taken undirected (the generous reading; a node unreachable undirectedly is
also unreachable following link direction). -/

def reachExpand (links : List GraphLink) (s : List String) : List String :=
  links.foldl (fun acc l =>
    if l.source ∈ acc then setAdd acc l.target
    else if l.target ∈ acc then setAdd acc l.source
    else acc) s

def reachIter (links : List GraphLink) : Nat → List String → List String
  | 0, s => s
  | n + 1, s => reachIter links n (reachExpand links s)

def reachableIds (links : List GraphLink) (start : String) : List String :=
  reachIter links (2 * links.length + 1) [start]

instance {ε α : Type} [DecidableEq ε] [DecidableEq α] :
    DecidableEq (Except ε α) := fun x y =>
  match x, y with
  | .error a, .error b =>
      if h : a = b then isTrue (by rw [h])
      else isFalse (by intro hh; cases hh; exact h rfl)
  | .ok a, .ok b =>
      if h : a = b then isTrue (by rw [h])
      else isFalse (by intro hh; cases hh; exact h rfl)
  | .error _, .ok _ => isFalse (by intro hh; cases hh)
  | .ok _, .error _ => isFalse (by intro hh; cases hh)

/-! ## Claim C1 -/

/-- C1 (code bug): unknown years are not treated permissively by the code.
At the failing input — a `references` candidate with parent year `null` and
child year 1990 — the source's `isTemporallyConsistent` coerces the unknown
year with `Number(null) = 0`, which is finite, so the permissive guard does
not fire and the candidate is rejected (`1990 ≤ 0` is false), while the
specification's rule accepts it.  End to end: a seed with an unknown year
and one known-year reference produces a graph with no links and only the
center node. -/
theorem c1_unknown_year_coerced_to_zero :
    isTemporallyConsistent none (some 1990) .references = false ∧
    isTemporallyConsistentSpec none (some 1990) .references = true ∧
    (buildGraph pC1 .referencesFirst "W1000" (some "1") (some "20")).toOption.map
      (fun g => (g.links.length, g.nodes.length)) = some (0, 1) := by
  decide

/-! ## Claim C6 -/

/-- C6 counterexample: a non-numeric `depth`/`limit` input yields the
defaults (2 and 20), which are not the interval bounds the claim names
(`[1,3]` and `[1,30]`), so non-numeric inputs are not "clamped to the
nearest bound". -/
theorem c6_non_numeric_yields_default_not_bound :
    parseGraphParams (some "abc") (some "xyz") = (2, 20) ∧
    ¬((parseGraphParams (some "abc") (some "xyz")).1 = 1 ∨
      (parseGraphParams (some "abc") (some "xyz")).1 = 3) ∧
    ¬((parseGraphParams (some "abc") (some "xyz")).2 = 1 ∨
      (parseGraphParams (some "abc") (some "xyz")).2 = 30) := by
  decide

/-- C6 amended: `depth` defaults to 2 and `limit` to 20; numeric inputs are
clamped to `[1,3]` and `[1,30]` (depth `"99"` yields 3, limit `"-5"` yields
1); inputs with no parseable integer (missing or non-numeric) fall back to
the defaults rather than being rejected or clamped to a bound; the results
always lie in the respective intervals. -/
theorem c6_amended_clamping (d l : Option String) :
    parseGraphParams none none = (2, 20) ∧
    parseGraphParams (some "99") (some "-5") = (3, 1) ∧
    (jsParseInt d = none → (parseGraphParams d l).1 = 2) ∧
    (jsParseInt l = none → (parseGraphParams d l).2 = 20) ∧
    (∀ n, jsParseInt d = some n → (parseGraphParams d l).1 = min 3 (max 1 n)) ∧
    (∀ n, jsParseInt l = some n → (parseGraphParams d l).2 = min 30 (max 1 n)) ∧
    1 ≤ (parseGraphParams d l).1 ∧ (parseGraphParams d l).1 ≤ 3 ∧
    1 ≤ (parseGraphParams d l).2 ∧ (parseGraphParams d l).2 ≤ 30 := by
  refine ⟨by decide, by decide, ?_, ?_, ?_, ?_,
    (clampInteger_bounds d 1 3 2 (by decide) (by decide) (by decide)).1,
    (clampInteger_bounds d 1 3 2 (by decide) (by decide) (by decide)).2,
    (clampInteger_bounds l 1 30 20 (by decide) (by decide) (by decide)).1,
    (clampInteger_bounds l 1 30 20 (by decide) (by decide) (by decide)).2⟩
  · intro h
    simp [parseGraphParams, clampInteger, h]
  · intro h
    simp [parseGraphParams, clampInteger, h]
  · intro n h
    simp [parseGraphParams, clampInteger, h]
  · intro n h
    simp [parseGraphParams, clampInteger, h]

theorem c6_amended_clamping_witness :
    (parseGraphParams (some "abc") (some "40")).1 = 2 ∧
    (parseGraphParams (some "abc") (some "40")).2 = 30 := by
  constructor
  · exact (c6_amended_clamping (some "abc") (some "40")).2.2.1 (by decide)
  · exact ((c6_amended_clamping (some "abc") (some "40")).2.2.2.2.2.1 40
      (by decide)).trans (by decide)

/-! ## Claim C7 -/

/-- C7: an unparseable seed id fails with the classified error
`BAD_WORK_ID` with an empty fetch trace (before any network fetch, for
every provider); a normalized seed with no provider record fails with the
classified error `NOT_FOUND` after exactly one lookup (the trace is that
single by-id fetch); and the two classifications map to the distinct HTTP
statuses 400 and 404, distinguished from the 502 used for generic upstream
failures. -/
theorem c7_error_classification (p : Provider) (sched : Schedule)
    (i : String) (d l : Option String) :
    (toOpenAlexId i = none →
      buildGraphT p sched i d l = (.error .badWorkId, [])) ∧
    (∀ wid, toOpenAlexId i = some wid → p.getWorkById wid = none →
      buildGraphT p sched i d l = (.error .notFound, [.byId wid])) ∧
    graphStatus .badWorkId = 400 ∧ graphStatus .notFound = 404 ∧
    graphStatus .upstream = 502 := by
  refine ⟨?_, ?_, rfl, rfl, rfl⟩
  · intro h
    unfold buildGraphT
    rw [h]
  · intro wid hwid hc
    unfold buildGraphT
    rw [hwid]
    dsimp only
    rw [hc]

theorem c7_error_classification_witness :
    buildGraphT pEmpty Schedule.referencesFirst "garbage" none none =
      (.error .badWorkId, []) ∧
    buildGraphT pEmpty Schedule.referencesFirst "W1000" none none =
      (.error .notFound, [.byId CID]) := by
  constructor
  · exact (c7_error_classification pEmpty .referencesFirst "garbage"
      none none).1 (by decide)
  · exact (c7_error_classification pEmpty .referencesFirst "W1000"
      none none).2.1 CID (by decide) rfl

/-! ## Claim C9 -/

/-- C9 counterexample: the meta object's keys are
`centerWorkId`, `depth`, `limit` — there is no `centerId` key, contrary to
the claimed shape `{ meta: { centerId, depth, limit }, ... }`. -/
theorem c9_meta_key_is_centerWorkId :
    "centerId" ∉ graphMetaKeys ∧
    graphMetaKeys = ["centerWorkId", "depth", "limit"] := by
  decide

/-- C9 amended: a successful `buildGraph` returns
`{ meta: { centerWorkId, depth, limit }, nodes, links }` where
`meta.centerWorkId` is the fetched center's id, `meta.depth` is the clamped
requested depth (in `[1,3]`) and `meta.limit` is the clamped requested
limit, ranging over the full `[1,30]` interval. -/
theorem c9_amended_output_shape (p : Provider) (sched : Schedule)
    (i : String) (d l : Option String) (out : GraphOutput)
    (tr : List FetchEvent)
    (h : buildGraphT p sched i d l = (.ok out, tr)) :
    out.meta.depth = clampInteger d 1 3 2 ∧
    out.meta.limit = clampInteger l 1 30 20 ∧
    1 ≤ out.meta.depth ∧ out.meta.depth ≤ 3 ∧
    1 ≤ out.meta.limit ∧ out.meta.limit ≤ 30 ∧
    (∃ wid center, toOpenAlexId i = some wid ∧
      p.getWorkById wid = some center ∧
      out.meta.centerWorkId = center.id) := by
  obtain ⟨wid, center, hwid, hc, hout⟩ :=
    buildGraphT_ok_elim p sched i d l out tr h
  subst hout
  refine ⟨rfl, rfl, ?_, ?_, ?_, ?_, wid, center, hwid, hc, rfl⟩
  · exact (clampInteger_bounds d 1 3 2 (by decide) (by decide) (by decide)).1
  · exact (clampInteger_bounds d 1 3 2 (by decide) (by decide) (by decide)).2
  · exact (clampInteger_bounds l 1 30 20 (by decide) (by decide) (by decide)).1
  · exact (clampInteger_bounds l 1 30 20 (by decide) (by decide) (by decide)).2

def c9Run : Except BuildErr GraphOutput × List FetchEvent :=
  buildGraphT pSmall Schedule.referencesFirst "W1000" none (some "30")

def c9Out : GraphOutput := c9Run.1.toOption.getD default

theorem c9_amended_output_shape_witness :
    c9Out.meta.limit = 30 ∧ c9Out.meta.depth = 2 ∧
    c9Out.meta.centerWorkId = CID := by
  have hrun : buildGraphT pSmall Schedule.referencesFirst "W1000" none
      (some "30") = (.ok c9Out, c9Run.2) := by decide
  have hm := c9_amended_output_shape pSmall Schedule.referencesFirst "W1000"
    none (some "30") c9Out c9Run.2 hrun
  refine ⟨hm.2.1.trans (by decide), hm.1.trans (by decide), ?_⟩
  obtain ⟨wid, center, hwid, hc, hcid⟩ := hm.2.2.2.2.2.2
  have hwidc : toOpenAlexId "W1000" = some CID := by decide
  rw [hwidc] at hwid
  injection hwid with hwid2
  rw [← hwid2] at hc
  have hcc : pSmall.getWorkById CID = some (mkWork CID (some 2000) 7 []) := by
    decide
  rw [hcc] at hc
  injection hc with hc2
  rw [hcid, ← hc2]
  decide

/-! ## Claim C2 -/

theorem mem_setAdd (acc : List String) (x y : String) :
    y ∈ setAdd acc x ↔ y ∈ acc ∨ y = x := by
  unfold setAdd
  by_cases h : x ∈ acc
  · simp only [h, if_true]
    constructor
    · exact fun hy => Or.inl hy
    · rintro (hy | hy)
      · exact hy
      · exact hy ▸ h
  · simp [h]

theorem mem_connectedFold (links : List GraphLink) (init : List String)
    (x : String) :
    x ∈ links.foldl
        (fun acc link => setAdd (setAdd acc link.source) link.target) init ↔
      x ∈ init ∨ ∃ link ∈ links, x = link.source ∨ x = link.target := by
  induction links generalizing init with
  | nil => simp
  | cons l rest ih =>
      rw [List.foldl_cons, ih]
      rw [mem_setAdd, mem_setAdd]
      constructor
      · rintro (((h | h) | h) | ⟨link, hlink, h⟩)
        · exact Or.inl h
        · exact Or.inr ⟨l, List.mem_cons_self l rest, Or.inl h⟩
        · exact Or.inr ⟨l, List.mem_cons_self l rest, Or.inr h⟩
        · exact Or.inr ⟨link, List.mem_cons_of_mem l hlink, h⟩
      · rintro (h | ⟨link, hlink, h⟩)
        · exact Or.inl (Or.inl (Or.inl h))
        · rcases List.mem_cons.mp hlink with hl | hl
          · subst hl
            rcases h with h | h
            · exact Or.inl (Or.inl (Or.inr h))
            · exact Or.inl (Or.inr h)
          · exact Or.inr ⟨link, hl, h⟩

theorem assembleOutput_nodes_endpoints (center : Work) (d l : Int)
    (st : BuildState) :
    ∀ n ∈ (assembleOutput center d l st).nodes,
      n.id = center.id ∨
        ∃ link ∈ (assembleOutput center d l st).links,
          link.source = n.id ∨ link.target = n.id := by
  intro n hn
  simp only [assembleOutput] at hn ⊢
  rcases List.mem_filter.mp hn with ⟨hmem, hconn⟩
  have hconn2 := of_decide_eq_true hconn
  rcases (mem_connectedFold _ _ _).mp hconn2 with h | ⟨link, hlink, h⟩
  · left
    simpa using h
  · right
    refine ⟨link, hlink, ?_⟩
    rcases h with h | h
    · exact Or.inl h.symm
    · exact Or.inr h.symm

/-- C2 amended: every node of the output is the center or an endpoint of an
output link — nodes with no surviving incident link are removed.  (This is
the pruning the source performs; it implies there are no isolated non-center
nodes, but not that every node is reachable from the center: see the
counterexample, where a surviving link between two poisoned nodes keeps an
unreachable island.) -/
theorem c2_amended_endpoint_pruning (p : Provider) (sched : Schedule)
    (i : String) (d l : Option String) (out : GraphOutput)
    (tr : List FetchEvent)
    (h : buildGraphT p sched i d l = (.ok out, tr)) :
    ∀ n ∈ out.nodes, n.id = out.meta.centerWorkId ∨
      ∃ link ∈ out.links, link.source = n.id ∨ link.target = n.id := by
  obtain ⟨wid, center, hwid, hc, hout⟩ :=
    buildGraphT_ok_elim p sched i d l out tr h
  subst hout
  exact assembleOutput_nodes_endpoints center _ _ _

/-- The output of the orphan-island run (provider `p2`, depth 3, limit 20,
references side completing first). -/
def c2Out : GraphOutput :=
  (buildGraph p2 .referencesFirst "W1000" (some "3") (some "20")).toOption.getD
    default

set_option maxRecDepth 40000 in
/-- C2 counterexample: the orphan-island run keeps the nodes `A` and `B`
in the output although neither is reachable from the center through the
surviving links (not even by undirected steps): the only link touching them
is the island link `A -> B`, because the links `center -> A` (references)
and `P -> A` (cited_by) were both dropped by the temporal re-validation
after `A`'s and `P`'s node years were overwritten by later fetches. -/
theorem c2_orphan_island_kept :
    (buildGraph p2 .referencesFirst "W1000" (some "3") (some "20")).toOption =
      some c2Out ∧
    "A" ∈ c2Out.nodes.map (fun n => n.id) ∧
    "B" ∈ c2Out.nodes.map (fun n => n.id) ∧
    "A" ∉ reachableIds c2Out.links c2Out.meta.centerWorkId ∧
    "B" ∉ reachableIds c2Out.links c2Out.meta.centerWorkId := by
  decide

/-- The island node `A` of the orphan-island run's output. -/
def c2NodeA : GraphNode :=
  ((c2Out.nodes.filter (fun n => n.id == "A")).head?).getD default

set_option maxRecDepth 40000 in
theorem c2_amended_endpoint_pruning_witness :
    c2NodeA ∈ c2Out.nodes ∧
    (c2NodeA.id = c2Out.meta.centerWorkId ∨
      ∃ link ∈ c2Out.links, link.source = c2NodeA.id ∨
        link.target = c2NodeA.id) := by
  have hrun : buildGraphT p2 .referencesFirst "W1000" (some "3") (some "20") =
      (.ok c2Out, (buildGraphT p2 .referencesFirst "W1000" (some "3")
        (some "20")).2) := by decide
  exact ⟨by decide, c2_amended_endpoint_pruning p2 .referencesFirst "W1000"
    (some "3") (some "20") c2Out _ hrun c2NodeA (by decide)⟩

/-! ## Order facts for the lexicographic string comparison -/

theorem charListLt_irrefl (a : List Char) : charListLt a a = false := by
  induction a with
  | nil => rfl
  | cons c as ih => simp [charListLt, lt_irrefl, ih]

theorem charListLt_trans (a b c : List Char) (h1 : charListLt a b = true)
    (h2 : charListLt b c = true) : charListLt a c = true := by
  induction a generalizing b c with
  | nil =>
      cases c with
      | nil =>
          cases b with
          | nil => exact h1
          | cons y bs => simp [charListLt] at h2
      | cons z cs => rfl
  | cons x as ih =>
      cases b with
      | nil => simp [charListLt] at h1
      | cons y bs =>
          cases c with
          | nil => simp [charListLt] at h2
          | cons z cs =>
              simp only [charListLt] at h1 h2 ⊢
              by_cases hxy : x < y
              · by_cases hyz : y < z
                · simp [lt_trans hxy hyz]
                · simp only [if_neg hyz] at h2
                  by_cases hzy : z < y
                  · simp [hzy] at h2
                  · have hyzeq : y = z := le_antisymm (not_lt.mp hzy) (not_lt.mp hyz)
                    subst hyzeq
                    simp [hxy]
              · simp only [if_neg hxy] at h1
                by_cases hyx : y < x
                · simp [hyx] at h1
                · have hxyeq : x = y := le_antisymm (not_lt.mp hyx) (not_lt.mp hxy)
                  subst hxyeq
                  by_cases hyz : x < z
                  · simp [hyz]
                  · simp only [if_neg hyz] at h2 ⊢
                    by_cases hzy : z < x
                    · simp [hzy] at h2
                    · simp only [if_neg hzy] at h2 ⊢
                      exact ih bs cs (by simpa using h1) h2

theorem charListLt_trichotomy (a b : List Char) :
    charListLt a b = true ∨ a = b ∨ charListLt b a = true := by
  induction a generalizing b with
  | nil =>
      cases b with
      | nil => exact Or.inr (Or.inl rfl)
      | cons y bs => exact Or.inl rfl
  | cons x as ih =>
      cases b with
      | nil => exact Or.inr (Or.inr rfl)
      | cons y bs =>
          rcases lt_trichotomy x y with h | h | h
          · left; simp [charListLt, h]
          · subst h
            rcases ih bs with h2 | h2 | h2
            · left; simp [charListLt, lt_irrefl, h2]
            · right; left; rw [h2]
            · right; right; simp [charListLt, lt_irrefl, h2]
          · right; right; simp [charListLt, h, asymm h]

theorem strLe_refl (a : String) : strLe a a = true := by
  simp [strLe, strLt, charListLt_irrefl]

theorem strLe_of_not_strLt (a b : String) (h : strLt b a = false) :
    strLe a b = true := by
  simp [strLe, h]

theorem strLt_strLe_trans (a b c : String) (h1 : strLt a b = true)
    (h2 : strLe b c = true) : strLe a c = true := by
  simp only [strLe, strLt, Bool.not_eq_true'] at h2 ⊢
  by_cases h3 : charListLt c.toList a.toList = true
  · have := charListLt_trans _ _ _ h3 h1
    rw [this] at h2
    exact absurd h2 (by simp)
  · simpa using h3

theorem strLe_trans (a b c : String) (h1 : strLe a b = true)
    (h2 : strLe b c = true) : strLe a c = true := by
  simp only [strLe, strLt, Bool.not_eq_true'] at h1 h2 ⊢
  by_cases h3 : charListLt c.toList a.toList = true
  · rcases charListLt_trichotomy b.toList a.toList with h4 | h4 | h4
    · rw [h4] at h1; exact absurd h1 (by simp)
    · rw [← h4] at h3; rw [h3] at h2; exact absurd h2 (by simp)
    · have := charListLt_trans _ _ _ h3 h4
      rw [this] at h2
      exact absurd h2 (by simp)
  · simpa using h3

theorem charListLt_asymm (a b : List Char) (h : charListLt a b = true) :
    charListLt b a = false := by
  rcases Bool.eq_false_or_eq_true (charListLt b a) with h2 | h2
  · have h3 := charListLt_trans a b a h h2
    rw [charListLt_irrefl] at h3
    exact absurd h3 (by simp)
  · exact h2

theorem strLe_total (a b : String) : strLe a b = true ∨ strLe b a = true := by
  simp only [strLe, strLt, Bool.not_eq_true']
  rcases charListLt_trichotomy a.toList b.toList with h | h | h
  · left
    exact charListLt_asymm _ _ h
  · left
    rw [h, charListLt_irrefl]
  · right
    exact charListLt_asymm _ _ h

/-! ## Claim C5 -/

theorem alookup_head {α : Type} (k0 : String) (v0 : α)
    (rest : List (String × α)) : alookup ((k0, v0) :: rest) k0 = some v0 := by
  simp [alookup]

theorem alookup_tail {α : Type} (k0 k : String) (v0 : α)
    (rest : List (String × α)) (h : k0 ≠ k) :
    alookup ((k0, v0) :: rest) k = alookup rest k := by
  simp [alookup, h]

/-- In a no-duplicate-key association list whose values carry their own key
(`f v = k` for every binding), filtering the value list by key `c` yields
exactly the binding stored at `c`. -/
theorem avalues_filter_key {α : Type} (f : α → String) :
    ∀ (m : List (String × α)), (akeys m).Nodup →
    (∀ k v, alookup m k = some v → f v = k) →
    ∀ (c : String) (v : α), alookup m c = some v →
    (avalues m).filter (fun x => f x == c) = [v] := by
  intro m
  induction m with
  | nil => intro _ _ c v hv; simp [alookup] at hv
  | cons kv rest ih =>
      obtain ⟨k0, v0⟩ := kv
      intro hnd hkey c v hv
      have hnd2 : (akeys rest).Nodup := (List.nodup_cons.mp (by simpa using hnd)).2
      have hk0 : k0 ∉ akeys rest := (List.nodup_cons.mp (by simpa using hnd)).1
      have hkey0 : f v0 = k0 := hkey k0 v0 (alookup_head k0 v0 rest)
      have hkeyrest : ∀ k2 v2, alookup rest k2 = some v2 → f v2 = k2 := by
        intro k2 v2 h2
        by_cases hk2 : k0 = k2
        · subst hk2
          have hnone : alookup rest k0 = none := (alookup_eq_none_iff rest k0).mpr hk0
          rw [hnone] at h2
          exact absurd h2 (by simp)
        · exact hkey k2 v2 (by rw [alookup_tail k0 k2 v0 rest hk2]; exact h2)
      by_cases hc : k0 = c
      · subst hc
        rw [alookup_head] at hv
        have hvv : v0 = v := by injection hv
        subst hvv
        have hrest : (avalues rest).filter (fun x => f x == k0) = [] := by
          rw [List.filter_eq_nil_iff]
          intro x hx
          rcases (avalues_mem_iff rest hnd2 x).mp hx with ⟨k2, hk2⟩
          have hfx := hkeyrest k2 x hk2
          have hkmem : k2 ∈ akeys rest := by
            by_cases hb : k2 ∈ akeys rest
            · exact hb
            · have hnone := (alookup_eq_none_iff rest k2).mpr hb
              rw [hnone] at hk2
              exact absurd hk2 (by simp)
          simp only [hfx]
          intro hcon
          have hcon2 : k2 = k0 := by simpa using hcon
          exact hk0 (hcon2 ▸ hkmem)
        simp [hkey0, hrest]
      · rw [alookup_tail k0 c v0 rest hc] at hv
        have hne : ¬ (f v0 == c) = true := by simp [hkey0, hc]
        simp only [avalues_cons, List.filter_cons, hne, if_false]
        exact ih hnd2 hkeyrest c v hv

/-- The invariant of the per-level child dedup fold: the map has no
duplicate keys; each stored pair is one of the pairs seen so far, is stored
under its child id, and has the lowest parent id among the seen pairs with
that child; and every seen child id is present. -/
def DedupInv (seen : List PCPair) (m : List (String × PCPair)) : Prop :=
  (akeys m).Nodup ∧
  (∀ k e, alookup m k = some e → e.child.id = k ∧ e ∈ seen ∧
    ∀ e2, e2 ∈ seen → e2.child.id = k →
      strLe e.parent.id e2.parent.id = true) ∧
  (∀ e, e ∈ seen → ∃ e2, alookup m e.child.id = some e2)

theorem dedupStep_inv (seen : List PCPair) (m : List (String × PCPair))
    (e : PCPair) (hinv : DedupInv seen m) :
    DedupInv (seen ++ [e]) (dedupStep m e) := by
  obtain ⟨hnd, hval, hpresent⟩ := hinv
  unfold dedupStep
  cases hle : alookup m e.child.id with
  | none =>
      show DedupInv (seen ++ [e]) (aset m e.child.id e)
      refine ⟨nodup_akeys_aset m e.child.id e hnd, ?_, ?_⟩
      · intro k e2 h2
        by_cases hk : k = e.child.id
        · subst hk
          rw [alookup_aset_self] at h2
          have he2 : e2 = e := by injection h2; rename_i hh; exact hh.symm
          subst he2
          refine ⟨rfl, List.mem_append_right seen (List.mem_singleton.mpr rfl), ?_⟩
          intro e3 he3 hc3
          rcases List.mem_append.mp he3 with h3 | h3
          · rcases hpresent e3 h3 with ⟨e4, he4⟩
            rw [hc3, hle] at he4
            exact absurd he4 (by simp)
          · rw [List.mem_singleton.mp h3]
            exact strLe_refl _
        · rw [alookup_aset_ne m e.child.id k e hk] at h2
          obtain ⟨hc2, hm2, hmin2⟩ := hval k e2 h2
          refine ⟨hc2, List.mem_append_left _ hm2, ?_⟩
          intro e3 he3 hc3
          rcases List.mem_append.mp he3 with h3 | h3
          · exact hmin2 e3 h3 hc3
          · rw [List.mem_singleton.mp h3] at hc3
            exact absurd hc3 (fun hh => hk hh.symm)
      · intro e3 he3
        rcases List.mem_append.mp he3 with h3 | h3
        · rcases hpresent e3 h3 with ⟨e4, he4⟩
          by_cases hk : e3.child.id = e.child.id
          · rw [hk, alookup_aset_self]
            exact ⟨e, rfl⟩
          · rw [alookup_aset_ne m e.child.id e3.child.id e hk]
            exact ⟨e4, he4⟩
        · rw [List.mem_singleton.mp h3, alookup_aset_self]
          exact ⟨e, rfl⟩
  | some ex =>
      show DedupInv (seen ++ [e])
        (if strLt e.parent.id ex.parent.id = true then aset m e.child.id e
         else m)
      by_cases hlt : strLt e.parent.id ex.parent.id = true
      · rw [if_pos hlt]
        refine ⟨nodup_akeys_aset m e.child.id e hnd, ?_, ?_⟩
        · intro k e2 h2
          by_cases hk : k = e.child.id
          · subst hk
            rw [alookup_aset_self] at h2
            obtain ⟨hcx, hmx, hminx⟩ := hval e.child.id ex hle
            have he2 : e2 = e := by injection h2; rename_i hh; exact hh.symm
            subst he2
            refine ⟨rfl, List.mem_append_right seen (List.mem_singleton.mpr rfl), ?_⟩
            intro e3 he3 hc3
            rcases List.mem_append.mp he3 with h3 | h3
            · exact strLt_strLe_trans _ _ _ hlt (hminx e3 h3 hc3)
            · rw [List.mem_singleton.mp h3]
              exact strLe_refl _
          · rw [alookup_aset_ne m e.child.id k e hk] at h2
            obtain ⟨hc2, hm2, hmin2⟩ := hval k e2 h2
            refine ⟨hc2, List.mem_append_left _ hm2, ?_⟩
            intro e3 he3 hc3
            rcases List.mem_append.mp he3 with h3 | h3
            · exact hmin2 e3 h3 hc3
            · rw [List.mem_singleton.mp h3] at hc3
              exact absurd hc3 (fun hh => hk hh.symm)
        · intro e3 he3
          rcases List.mem_append.mp he3 with h3 | h3
          · rcases hpresent e3 h3 with ⟨e4, he4⟩
            by_cases hk : e3.child.id = e.child.id
            · rw [hk, alookup_aset_self]
              exact ⟨e, rfl⟩
            · rw [alookup_aset_ne m e.child.id e3.child.id e hk]
              exact ⟨e4, he4⟩
          · rw [List.mem_singleton.mp h3, alookup_aset_self]
            exact ⟨e, rfl⟩
      · rw [if_neg hlt]
        refine ⟨hnd, ?_, ?_⟩
        · intro k e2 h2
          obtain ⟨hc2, hm2, hmin2⟩ := hval k e2 h2
          refine ⟨hc2, List.mem_append_left _ hm2, ?_⟩
          intro e3 he3 hc3
          rcases List.mem_append.mp he3 with h3 | h3
          · exact hmin2 e3 h3 hc3
          · have he3e : e3 = e := List.mem_singleton.mp h3
            subst he3e
            have hq := hle
            rw [hc3] at hq
            have hee : e2 = ex := by
              have h5 := hq.symm.trans h2
              injection h5; rename_i hh; exact hh.symm
            subst hee
            exact strLe_of_not_strLt _ _ (by simpa using hlt)
        · intro e3 he3
          rcases List.mem_append.mp he3 with h3 | h3
          · exact hpresent e3 h3
          · rw [List.mem_singleton.mp h3]
            exact ⟨ex, hle⟩

theorem dedupFold_inv (l : List PCPair) :
    ∀ (seen : List PCPair) (m : List (String × PCPair)),
    DedupInv seen m → DedupInv (seen ++ l) (l.foldl dedupStep m) := by
  induction l with
  | nil => intro seen m h; simpa using h
  | cons e l ih =>
      intro seen m h
      have h2 := ih (seen ++ [e]) (dedupStep m e) (dedupStep_inv seen m e h)
      rw [List.append_assoc] at h2
      simpa using h2

theorem dedupInv_nil : DedupInv [] [] := by
  refine ⟨List.nodup_nil, ?_, ?_⟩
  · intro k e h; simp [alookup] at h
  · intro e h; simp at h

/-- C5: within one expansion level, when the same child work is collected
from several frontier parents, the per-child dedup keeps exactly one
`(parent, child)` pair for that child, and the kept pair is one of the
collected pairs and has the lowest parent id among them (in the code-point
order JS `<` uses). -/
theorem c5_duplicate_child_lowest_parent (l : List PCPair) (c : String)
    (hc : ∃ e, e ∈ l ∧ e.child.id = c) :
    ((uniqueByChild l).filter (fun e => e.child.id == c)).length = 1 ∧
    ∀ e, e ∈ uniqueByChild l → e.child.id = c →
      e ∈ l ∧ ∀ e2, e2 ∈ l → e2.child.id = c →
        strLe e.parent.id e2.parent.id = true := by
  have hinv : DedupInv l (l.foldl dedupStep []) := by
    have := dedupFold_inv l [] [] dedupInv_nil
    simpa using this
  obtain ⟨hnd, hval, hpresent⟩ := hinv
  obtain ⟨e0, he0, hce0⟩ := hc
  obtain ⟨v, hv⟩ := hpresent e0 he0
  rw [hce0] at hv
  constructor
  · have hfilter := avalues_filter_key (fun pr => pr.child.id)
      (l.foldl dedupStep []) hnd (fun k e h => (hval k e h).1) c v hv
    unfold uniqueByChild
    rw [hfilter]
    rfl
  · intro e he hec
    rcases (avalues_mem_iff (l.foldl dedupStep []) hnd e).mp he with ⟨k, hk⟩
    obtain ⟨hck, hmem, hmin⟩ := hval k e hk
    rw [hec] at hck
    subst hck
    exact ⟨hmem, fun e2 he2 hc2 => hmin e2 he2 hc2⟩

def c5PairHighParent : PCPair :=
  ⟨mkWork "PB" (some 2000) 0 [], mkWork "X" (some 1990) 0 []⟩

def c5PairLowParent : PCPair :=
  ⟨mkWork "PA" (some 2001) 0 [], mkWork "X" (some 1991) 0 []⟩

theorem c5_duplicate_child_lowest_parent_witness :
    ((uniqueByChild [c5PairHighParent, c5PairLowParent]).filter
      (fun e => e.child.id == "X")).length = 1 ∧
    uniqueByChild [c5PairHighParent, c5PairLowParent] = [c5PairLowParent] := by
  refine ⟨(c5_duplicate_child_lowest_parent
    [c5PairHighParent, c5PairLowParent] "X"
    ⟨c5PairHighParent, by decide, by decide⟩).1, by decide⟩

/-! ## Claim C4 -/

theorem influenceLE_trans (a b c : Work) (h1 : influenceLE a b = true)
    (h2 : influenceLE b c = true) : influenceLE a c = true := by
  simp only [influenceLE, Bool.or_eq_true, Bool.and_eq_true,
    decide_eq_true_eq] at h1 h2 ⊢
  rcases h1 with h1 | ⟨h1e, h1s⟩
  · rcases h2 with h2 | ⟨h2e, h2s⟩
    · left; omega
    · left; omega
  · rcases h2 with h2 | ⟨h2e, h2s⟩
    · left; omega
    · right
      exact ⟨by omega, strLe_trans _ _ _ h1s h2s⟩

theorem influenceLE_total (a b : Work) :
    influenceLE a b = true ∨ influenceLE b a = true := by
  simp only [influenceLE, Bool.or_eq_true, Bool.and_eq_true,
    decide_eq_true_eq]
  rcases lt_trichotomy a.cited_by_count b.cited_by_count with h | h | h
  · right; left; exact h
  · rcases strLe_total a.id b.id with hs | hs
    · left; right; exact ⟨h, hs⟩
    · right; right; exact ⟨h.symm, hs⟩
  · left; left; exact h

/-- A lookup hit in the `worksById` map built from a list of works is one
of those works and is stored under its own id. -/
theorem worksById_lookup (works : List Work) :
    ∀ (m0 : List (String × Work)) (k : String) (v : Work),
    alookup (works.foldl (fun m w => aset m w.id w) m0) k = some v →
    (v ∈ works ∧ v.id = k) ∨ alookup m0 k = some v := by
  induction works with
  | nil => intro m0 k v h; exact Or.inr h
  | cons w ws ih =>
      intro m0 k v h
      rw [List.foldl_cons] at h
      rcases ih (aset m0 w.id w) k v h with ⟨hm, hid⟩ | h2
      · exact Or.inl ⟨List.mem_cons_of_mem w hm, hid⟩
      · by_cases hk : k = w.id
        · rw [hk, alookup_aset_self] at h2
          have hwv : w = v := by injection h2
          subst hwv
          exact Or.inl ⟨List.mem_cons_self w ws, hk.symm⟩
        · rw [alookup_aset_ne m0 w.id k w hk] at h2
          exact Or.inr h2

/-- C4: on the references side, for every frontier parent, the children
considered are the parent's `referenced_works` capped to the first 200
candidates and batch-fetched; the kept list has at most `perParentLimit`
elements, is sorted by `(cited_by_count desc, id asc)`, every kept element
ranks no worse than every fetched candidate that was not kept, and the
ranking relation compares only `cited_by_count` and `id` — no other field
(such as `year`) takes part. -/
theorem c4_top_references_selection (p : Provider) (parent : Work)
    (ppl : Nat) (st : BuildState)
    (honest : ∀ w ∈ p.getWorksByIds
        (parent.referenced_works.take REFERENCE_CANDIDATE_CAP),
      w.id ∈ parent.referenced_works.take REFERENCE_CANDIDATE_CAP) :
    (getTopReferences p parent ppl st).1.length ≤ ppl ∧
    (∀ w ∈ (getTopReferences p parent ppl st).1,
      w.id ∈ parent.referenced_works.take REFERENCE_CANDIDATE_CAP ∧
      w ∈ p.getWorksByIds
        (parent.referenced_works.take REFERENCE_CANDIDATE_CAP)) ∧
    List.Pairwise (fun a b => influenceLE a b = true)
      (getTopReferences p parent ppl st).1 ∧
    (∀ a ∈ (getTopReferences p parent ppl st).1,
      ∀ b ∈ parent.referenced_works.filterMap (fun id =>
        alookup ((p.getWorksByIds
            (parent.referenced_works.take REFERENCE_CANDIDATE_CAP)).foldl
          (fun m w => aset m w.id w) []) id),
        influenceLE a b = true ∨ b ∈ (getTopReferences p parent ppl st).1) ∧
    (∀ a b, influenceLE a b = true ↔
      (b.cited_by_count < a.cited_by_count ∨
        (a.cited_by_count = b.cited_by_count ∧ strLe a.id b.id = true))) := by
  by_cases hrefs : parent.referenced_works.isEmpty
  · constructor
    · simp [getTopReferences, hrefs]
    constructor
    · intro w hw
      simp [getTopReferences, hrefs] at hw
    constructor
    · simp [getTopReferences, hrefs]
    constructor
    · intro a ha
      simp [getTopReferences, hrefs] at ha
    · intro a b
      simp [influenceLE]
  · have hres : (getTopReferences p parent ppl st).1 =
        (sortByInfluence (parent.referenced_works.filterMap (fun id =>
          alookup ((p.getWorksByIds
              (parent.referenced_works.take REFERENCE_CANDIDATE_CAP)).foldl
            (fun m w => aset m w.id w) []) id))).take ppl := by
      simp [getTopReferences, hrefs]
    set ordered := parent.referenced_works.filterMap (fun id =>
      alookup ((p.getWorksByIds
          (parent.referenced_works.take REFERENCE_CANDIDATE_CAP)).foldl
        (fun m w => aset m w.id w) []) id) with hordered
    have hsorted : List.Pairwise (fun a b => influenceLE a b = true)
        (sortByInfluence ordered) :=
      stableSort_pairwise influenceLE influenceLE_trans
        (fun a b => influenceLE_total a b) ordered
    constructor
    · rw [hres]
      simp
    constructor
    · intro w hw
      rw [hres] at hw
      have hw2 : w ∈ sortByInfluence ordered := List.mem_of_mem_take hw
      have hw3 : w ∈ ordered :=
        (stableSort_perm influenceLE ordered).mem_iff.mp hw2
      rcases List.mem_filterMap.mp hw3 with ⟨r, hr, hlr⟩
      rcases worksById_lookup _ [] r w hlr with ⟨hmem, hid⟩ | hcon
      · exact ⟨hid ▸ honest w hmem, hmem⟩
      · simp [alookup] at hcon
    constructor
    · rw [hres]
      exact List.Pairwise.sublist (List.take_sublist ppl _) hsorted
    constructor
    · intro a ha b hb
      have hb2 : b ∈ sortByInfluence ordered :=
        (stableSort_perm influenceLE ordered).mem_iff.mpr hb
      rw [← List.take_append_drop ppl (sortByInfluence ordered)] at hb2
      rcases List.mem_append.mp hb2 with hbt | hbd
      · right
        rw [hres]
        exact hbt
      · left
        rw [← List.take_append_drop ppl (sortByInfluence ordered)] at hsorted
        have hcross := (List.pairwise_append.mp hsorted).2.2
        rw [hres] at ha
        exact hcross a ha b hbd
    · intro a b
      simp [influenceLE]

def c4Parent : Work := mkWork "PARENT" (some 2000) 0 ["R1", "R2", "R3"]

def pC4 : Provider :=
  { getWorkById := fun _ => none,
    getWorksByIds := fun ids =>
      if ids = ["R1", "R2", "R3"] then
        [mkWork "R1" (some 1990) 5 [], mkWork "R2" (some 1991) 9 [],
         mkWork "R3" (some 1992) 1 []]
      else [],
    getCitingWorks := fun _ _ => [] }

def stEmpty : BuildState :=
  { nodeMap := [], linkMap := [], workCache := [], trace := [] }

theorem c4_top_references_selection_witness :
    (getTopReferences pC4 c4Parent 2 stEmpty).1.length ≤ 2 ∧
    (getTopReferences pC4 c4Parent 2 stEmpty).1.map (fun w => w.id) =
      ["R2", "R1"] := by
  have honest : ∀ w ∈ pC4.getWorksByIds
      (c4Parent.referenced_works.take REFERENCE_CANDIDATE_CAP),
      w.id ∈ c4Parent.referenced_works.take REFERENCE_CANDIDATE_CAP := by
    decide
  exact ⟨(c4_top_references_selection pC4 c4Parent 2 stEmpty honest).1,
    by decide⟩

/-! ## State invariants through the expansion (claims C3 and C10) -/

theorem cacheWork_maps (w : Work) (st : BuildState) :
    (cacheWork w st).nodeMap = st.nodeMap ∧
    (cacheWork w st).linkMap = st.linkMap := by
  unfold cacheWork
  split <;> exact ⟨rfl, rfl⟩

theorem getWorkOrFetch_maps (p : Provider) (id : String) (st : BuildState) :
    (getWorkOrFetch p id st).2.nodeMap = st.nodeMap ∧
    (getWorkOrFetch p id st).2.linkMap = st.linkMap := by
  unfold getWorkOrFetch
  cases alookup st.workCache id with
  | some w => exact ⟨rfl, rfl⟩
  | none =>
      cases p.getWorkById id with
      | some w =>
          have h := cacheWork_maps w
            { st with trace := st.trace ++ [.byId id] }
          exact ⟨h.1, h.2⟩
      | none => exact ⟨rfl, rfl⟩

theorem getTopReferences_maps (p : Provider) (parent : Work) (lim : Nat)
    (st : BuildState) :
    (getTopReferences p parent lim st).2.nodeMap = st.nodeMap ∧
    (getTopReferences p parent lim st).2.linkMap = st.linkMap := by
  simp only [getTopReferences]
  split <;> exact ⟨rfl, rfl⟩

theorem getTopCitations_maps (p : Provider) (parentId : String) (lim : Nat)
    (st : BuildState) :
    (getTopCitations p parentId lim st).2.nodeMap = st.nodeMap ∧
    (getTopCitations p parentId lim st).2.linkMap = st.linkMap := by
  constructor <;> simp [getTopCitations]

theorem expandParent_maps (p : Provider) (side : LinkType) (ppl : Nat)
    (pid : String) (st : BuildState) :
    (expandParent p side ppl pid st).2.nodeMap = st.nodeMap ∧
    (expandParent p side ppl pid st).2.linkMap = st.linkMap := by
  unfold expandParent
  cases hfetch : getWorkOrFetch p pid st with
  | mk parentOpt st1 =>
      have h1 : st1.nodeMap = st.nodeMap ∧ st1.linkMap = st.linkMap := by
        have := getWorkOrFetch_maps p pid st
        rw [hfetch] at this
        exact this
      cases parentOpt with
      | none => exact h1
      | some parent =>
          cases side with
          | references =>
              have h2 := getTopReferences_maps p parent ppl st1
              exact ⟨h2.1.trans h1.1, h2.2.trans h1.2⟩
          | cited_by =>
              have h2 := getTopCitations_maps p parent.id ppl st1
              exact ⟨h2.1.trans h1.1, h2.2.trans h1.2⟩

theorem collectPairs_maps (p : Provider) (side : LinkType) (ppl : Nat) :
    ∀ (frontier : List String) (st : BuildState),
    (collectPairs p side ppl frontier st).2.nodeMap = st.nodeMap ∧
    (collectPairs p side ppl frontier st).2.linkMap = st.linkMap := by
  intro frontier
  induction frontier with
  | nil => intro st; exact ⟨rfl, rfl⟩
  | cons pid rest ih =>
      intro st
      unfold collectPairs
      have h1 := expandParent_maps p side ppl pid st
      have h2 := ih (expandParent p side ppl pid st).2
      exact ⟨h2.1.trans h1.1, h2.2.trans h1.2⟩

theorem addNode_linkMap (w : Work) (s : Side) (d : Nat) (st : BuildState) :
    (addNode w s d st).linkMap = st.linkMap := by
  simp only [addNode]
  cases alookup (cacheWork w st).nodeMap w.id with
  | none => exact (cacheWork_maps w st).2
  | some ex => exact (cacheWork_maps w st).2

theorem addLink_nodeMap (s t : String) (ty : LinkType) (dd : Direction)
    (st : BuildState) : (addLink s t ty dd st).nodeMap = st.nodeMap := by
  simp only [addLink]
  cases alookup st.linkMap (linkKey s t ty) with
  | some ex => rfl
  | none => rfl

theorem alookup_aset_cases {α : Type} (m : List (String × α)) (k k2 : String)
    (v v2 : α) (h : alookup (aset m k v) k2 = some v2) :
    (k2 = k ∧ v2 = v) ∨ (k2 ≠ k ∧ alookup m k2 = some v2) := by
  by_cases hk : k2 = k
  · subst hk
    rw [alookup_aset_self] at h
    refine Or.inl ⟨rfl, ?_⟩
    injection h
    rename_i hh
    exact hh.symm
  · rw [alookup_aset_ne m k k2 v hk] at h
    exact Or.inr ⟨hk, h⟩

/-- The node-map invariant: no duplicate keys, every node is keyed by its
own id, only the center's id ever carries `side = center`, and the center's
entry has `side = center` and `depth = 0`. -/
def NodeInvM (cid : String) (nm : List (String × GraphNode)) : Prop :=
  (akeys nm).Nodup ∧
  (∀ k n, alookup nm k = some n → n.id = k ∧ (n.side = Side.center → k = cid)) ∧
  (∃ n, alookup nm cid = some n ∧ n.side = Side.center ∧ n.depth = 0)

/-- The link-map invariant: no duplicate keys and every stored link's
direction is determined by its type. -/
def LinkInvM (lm : List (String × GraphLink)) : Prop :=
  (akeys lm).Nodup ∧
  ∀ k e, alookup lm k = some e → e.direction = dirTag e.type

def StInv (cid : String) (st : BuildState) : Prop :=
  NodeInvM cid st.nodeMap ∧ LinkInvM st.linkMap

theorem sideTag_ne_center (side : LinkType) : sideTag side ≠ Side.center := by
  cases side <;> simp [sideTag]

theorem mergeSide_eq_center (es s : Side) (hs : s ≠ Side.center)
    (h : mergeSide es s = Side.center) : es = Side.center := by
  revert h
  cases es <;> cases s <;> first
    | exact absurd rfl hs
    | decide

theorem mergeSide_center_left (s : Side) :
    mergeSide Side.center s = Side.center := by
  cases s <;> decide

theorem addNode_nodeInv (cid : String) (w : Work) (s : Side) (d : Nat)
    (st : BuildState) (hs : s ≠ Side.center)
    (h : NodeInvM cid st.nodeMap) :
    NodeInvM cid (addNode w s d st).nodeMap := by
  obtain ⟨hnd, hval, n0, hn0, hside0, hdepth0⟩ := h
  simp only [addNode]
  rw [(cacheWork_maps w st).1]
  cases hex : alookup st.nodeMap w.id with
  | none =>
      dsimp only
      have hcidne : cid ≠ w.id := by
        intro hh
        rw [← hh] at hex
        rw [hex] at hn0
        exact absurd hn0 (by simp)
      refine ⟨nodup_akeys_aset _ _ _ hnd, ?_, ?_⟩
      · intro k n hkn
        rcases alookup_aset_cases st.nodeMap w.id k _ n hkn with
          ⟨hk, hv⟩ | ⟨hk, hold⟩
        · subst hv
          subst hk
          exact ⟨rfl, fun hcen => absurd hcen hs⟩
        · exact hval k n hold
      · refine ⟨n0, ?_, hside0, hdepth0⟩
        rw [alookup_aset_ne st.nodeMap w.id cid _ hcidne]
        exact hn0
  | some ex =>
      dsimp only
      refine ⟨nodup_akeys_aset _ _ _ hnd, ?_, ?_⟩
      · intro k n hkn
        rcases alookup_aset_cases st.nodeMap w.id k _ n hkn with
          ⟨hk, hv⟩ | ⟨hk, hold⟩
        · subst hv
          subst hk
          refine ⟨rfl, fun hcen => ?_⟩
          exact (hval w.id ex hex).2 (mergeSide_eq_center ex.side s hs hcen)
        · exact hval k n hold
      · by_cases hcid : w.id = cid
        · subst hcid
          have hexn0 : ex = n0 := by
            have h5 := hex.symm.trans hn0
            injection h5
          subst hexn0
          refine ⟨_, alookup_aset_self _ _ _, ?_, ?_⟩
          · show mergeSide ex.side s = Side.center
            rw [hside0]
            exact mergeSide_center_left s
          · show min ex.depth d = 0
            rw [hdepth0]
            exact Nat.zero_min d
        · refine ⟨n0, ?_, hside0, hdepth0⟩
          rw [alookup_aset_ne st.nodeMap w.id cid _ (fun hh => hcid hh.symm)]
          exact hn0

theorem addLink_linkInv (s t : String) (ty : LinkType) (st : BuildState)
    (h : LinkInvM st.linkMap) :
    LinkInvM (addLink s t ty (dirTag ty) st).linkMap := by
  obtain ⟨hnd, hval⟩ := h
  simp only [addLink]
  cases hex : alookup st.linkMap (linkKey s t ty) with
  | some ex => exact ⟨hnd, hval⟩
  | none =>
      dsimp only
      refine ⟨nodup_akeys_aset _ _ _ hnd, ?_⟩
      intro k e he
      rcases alookup_aset_cases st.linkMap (linkKey s t ty) k _ e he with
        ⟨hk, hv⟩ | ⟨hk, hold⟩
      · subst hv
        rfl
      · exact hval k e hold

theorem acceptPairs_stInv (cid : String) (side : LinkType) (level : Nat)
    (limited : List PCPair) :
    ∀ st, StInv cid st → StInv cid (acceptPairs side level limited st) := by
  unfold acceptPairs
  induction limited with
  | nil => intro st h; exact h
  | cons pr rest ih =>
      intro st h
      rw [List.foldl_cons]
      apply ih
      constructor
      · rw [addLink_nodeMap]
        exact addNode_nodeInv cid pr.child (sideTag side) level st
          (sideTag_ne_center side) h.1
      · have h2 : LinkInvM (addNode pr.child (sideTag side) level st).linkMap := by
          rw [addNode_linkMap]
          exact h.2
        exact addLink_linkInv pr.parent.id pr.child.id side _ h2

theorem expandLevels_stInv (p : Provider) (side : LinkType) (limit : Nat)
    (cid : String) :
    ∀ (rem level : Nat) (frontier : List String) (st : BuildState),
    StInv cid st →
    StInv cid (expandLevels p side limit rem level frontier st) := by
  intro rem
  induction rem with
  | zero => intro level frontier st h; exact h
  | succ rem ih =>
      intro level frontier st h
      rw [expandLevels]
      by_cases hf : frontier.isEmpty
      · simp only [hf, if_true]
        exact h
      · simp only [hf, if_false]
        apply ih
        apply acceptPairs_stInv
        have hmaps := collectPairs_maps p side
          (max 1 (limit / frontier.length)) frontier st
        exact ⟨hmaps.1 ▸ h.1, hmaps.2 ▸ h.2⟩

theorem initState_stInv (center : Work) (wid : String) :
    StInv center.id (addNode center .center 0
      { nodeMap := [], linkMap := [], workCache := [],
        trace := [.byId wid] }) := by
  have hnm : (addNode center .center 0
      { nodeMap := [], linkMap := [], workCache := [],
        trace := [.byId wid] }).nodeMap =
      [(center.id, nodeOfWork center .center 0)] := by
    simp only [addNode]
    rw [(cacheWork_maps center _).1]
    simp [alookup, aset]
  have hlm : (addNode center .center 0
      { nodeMap := [], linkMap := [], workCache := [],
        trace := [.byId wid] }).linkMap = [] :=
    addNode_linkMap center .center 0 _
  constructor
  · rw [hnm]
    refine ⟨by simp, ?_, ?_⟩
    · intro k n hkn
      simp only [alookup] at hkn
      by_cases hk : center.id = k
      · rw [if_pos hk] at hkn
        have hnn : nodeOfWork center Side.center 0 = n := by injection hkn
        subst hnn
        exact ⟨hk, fun _ => hk.symm⟩
      · rw [if_neg hk] at hkn
        exact absurd hkn (by simp)
    · exact ⟨nodeOfWork center .center 0, by simp [alookup], rfl, rfl⟩
  · rw [hlm]
    exact ⟨by simp, fun k e he => by simp [alookup] at he⟩

theorem runSides_stInv (p : Provider) (sched : Schedule) (center : Work)
    (wid : String) (dN lN : Nat) :
    StInv center.id (runSides p sched center wid dN lN) := by
  have hinit := initState_stInv center wid
  unfold runSides
  cases sched with
  | referencesFirst =>
      exact expandLevels_stInv p .cited_by lN center.id dN 1 [center.id] _
        (expandLevels_stInv p .references lN center.id dN 1 [center.id] _ hinit)
  | citationsFirst =>
      exact expandLevels_stInv p .references lN center.id dN 1 [center.id] _
        (expandLevels_stInv p .cited_by lN center.id dN 1 [center.id] _ hinit)

/-! ## Claim C3 -/

theorem filter_comm2 {α : Type} (l : List α) (p q : α → Bool) :
    (l.filter p).filter q = (l.filter q).filter p := by
  induction l with
  | nil => rfl
  | cons a l ih =>
      by_cases hp : p a = true <;> by_cases hq : q a = true <;>
        simp [List.filter_cons, hp, hq, ih]

theorem avalues_filter_center (cid : String) :
    ∀ (nm : List (String × GraphNode)), NodeInvM cid nm →
    ∃ n, (avalues nm).filter (fun v => v.side == Side.center) = [n] ∧
      alookup nm cid = some n := by
  intro nm
  induction nm with
  | nil =>
      rintro ⟨-, -, n0, hn0, -⟩
      simp [alookup] at hn0
  | cons kv rest ih =>
      obtain ⟨k0, v0⟩ := kv
      rintro ⟨hnd, hval, n0, hn0, hside0, hdepth0⟩
      have hnd2 : (akeys rest).Nodup :=
        (List.nodup_cons.mp (by simpa using hnd)).2
      have hk0 : k0 ∉ akeys rest :=
        (List.nodup_cons.mp (by simpa using hnd)).1
      have hvalrest : ∀ k n, alookup rest k = some n →
          n.id = k ∧ (n.side = Side.center → k = cid) := by
        intro k n hk
        by_cases hkk : k0 = k
        · subst hkk
          have hnone : alookup rest k0 = none :=
            (alookup_eq_none_iff rest k0).mpr hk0
          rw [hnone] at hk
          exact absurd hk (by simp)
        · exact hval k n (by rw [alookup_tail k0 k v0 rest hkk]; exact hk)
      by_cases hs : v0.side = Side.center
      · have hk0cid : k0 = cid := (hval k0 v0 (alookup_head k0 v0 rest)).2 hs
        have hrest : (avalues rest).filter
            (fun v => v.side == Side.center) = [] := by
          rw [List.filter_eq_nil_iff]
          intro x hx
          rcases (avalues_mem_iff rest hnd2 x).mp hx with ⟨k2, hk2⟩
          have hkmem : k2 ∈ akeys rest := by
            by_cases hb : k2 ∈ akeys rest
            · exact hb
            · have hnone := (alookup_eq_none_iff rest k2).mpr hb
              rw [hnone] at hk2
              exact absurd hk2 (by simp)
          intro hcon
          have hxc : x.side = Side.center := by simpa using hcon
          have hk2cid : k2 = cid := (hvalrest k2 x hk2).2 hxc
          rw [hk2cid, ← hk0cid] at hkmem
          exact hk0 hkmem
        refine ⟨v0, ?_, ?_⟩
        · simp [List.filter_cons, hs, hrest]
        · rw [← hk0cid]
          exact alookup_head k0 v0 rest
      · have hk0cid : k0 ≠ cid := by
          intro hh
          subst hh
          rw [alookup_head] at hn0
          have hv0 : v0 = n0 := by injection hn0
          rw [hv0] at hs
          exact hs hside0
        have hn0rest : alookup rest cid = some n0 := by
          rw [alookup_tail k0 cid v0 rest hk0cid] at hn0
          exact hn0
        obtain ⟨n, hfilt, hlook⟩ :=
          ih ⟨hnd2, hvalrest, n0, hn0rest, hside0, hdepth0⟩
        refine ⟨n, ?_, ?_⟩
        · have hps : ¬ (v0.side == Side.center) = true := by simpa using hs
          simp [List.filter_cons, hps, hfilt]
        · rw [alookup_tail k0 cid v0 rest hk0cid]
          exact hlook

/-- C3: for every successful run, the returned graph contains exactly one
node with `side = center`, that node has `depth = 0` and carries the
center's id — re-adds of the center along expansion paths keep
`side = center` (the merge rule is absorbing) and `depth = 0` (minimum). -/
theorem c3_unique_center_node (p : Provider) (sched : Schedule) (i : String)
    (d l : Option String) (out : GraphOutput) (tr : List FetchEvent)
    (h : buildGraphT p sched i d l = (.ok out, tr)) :
    ∃ n, out.nodes.filter (fun m => m.side == Side.center) = [n] ∧
      n.depth = 0 ∧ n.id = out.meta.centerWorkId := by
  obtain ⟨wid, center, hwid, hc, hout⟩ :=
    buildGraphT_ok_elim p sched i d l out tr h
  subst hout
  obtain ⟨hnodeInv, hlinkInv⟩ := runSides_stInv p sched center wid
    (parseGraphParams d l).1.toNat (parseGraphParams d l).2.toNat
  obtain ⟨n, hfilt, hlook⟩ := avalues_filter_center center.id _ hnodeInv
  obtain ⟨hnd, hval, n0, hn0, hside0, hdepth0⟩ := hnodeInv
  have hnn0 : n = n0 := by
    have h5 := hlook.symm.trans hn0
    injection h5
  have hnid : n.id = center.id := (hval center.id n hlook).1
  refine ⟨n, ?_, by rw [hnn0]; exact hdepth0, hnid⟩
  simp only [assembleOutput]
  rw [filter_comm2, hfilt]
  have hmem : n.id ∈ (List.filter
      (fun link => isLinkTemporallyConsistent link
        (List.foldl (fun m nn => aset m nn.id nn) []
          (avalues (runSides p sched center wid
            (parseGraphParams d l).1.toNat
            (parseGraphParams d l).2.toNat).nodeMap)))
      (avalues (runSides p sched center wid
        (parseGraphParams d l).1.toNat
        (parseGraphParams d l).2.toNat).linkMap)).foldl
      (fun acc link => setAdd (setAdd acc link.source) link.target)
      [center.id] := by
    apply (mem_connectedFold _ _ _).mpr
    left
    rw [hnid]
    exact List.mem_singleton.mpr rfl
  simp [List.filter_singleton, hmem]

def c3Run : Except BuildErr GraphOutput × List FetchEvent :=
  buildGraphT pSmall Schedule.referencesFirst "W1000" none none

def c3Out : GraphOutput := c3Run.1.toOption.getD default

theorem c3_unique_center_node_witness :
    ∃ n, c3Out.nodes.filter (fun m => m.side == Side.center) = [n] ∧
      n.depth = 0 ∧ n.id = c3Out.meta.centerWorkId := by
  have hrun : buildGraphT pSmall Schedule.referencesFirst "W1000" none none =
      (.ok c3Out, c3Run.2) := by decide
  exact c3_unique_center_node pSmall Schedule.referencesFirst "W1000"
    none none c3Out c3Run.2 hrun

/-! ## Claim C10 -/

theorem dir_type_iff (ty : LinkType) (dd : Direction) (h : dd = dirTag ty) :
    (ty = LinkType.references ↔ dd = Direction.backward) ∧
    (ty = LinkType.cited_by ↔ dd = Direction.forward) := by
  subst h
  cases ty <;> simp [dirTag]

/-- C10: in every successful run, every output link's direction is
determined by its type: `references` if and only if `backward`, and
`cited_by` if and only if `forward` — every insertion pairs the type with
its fixed direction, and the keyed link map never overwrites. -/
theorem c10_direction_determined_by_type (p : Provider) (sched : Schedule)
    (i : String) (d l : Option String) (out : GraphOutput)
    (tr : List FetchEvent)
    (h : buildGraphT p sched i d l = (.ok out, tr)) :
    ∀ link ∈ out.links,
      (link.type = LinkType.references ↔
        link.direction = Direction.backward) ∧
      (link.type = LinkType.cited_by ↔
        link.direction = Direction.forward) := by
  obtain ⟨wid, center, hwid, hc, hout⟩ :=
    buildGraphT_ok_elim p sched i d l out tr h
  subst hout
  obtain ⟨-, hlm⟩ := runSides_stInv p sched center wid
    (parseGraphParams d l).1.toNat (parseGraphParams d l).2.toNat
  intro link hlink
  simp only [assembleOutput] at hlink
  have hmem := List.mem_of_mem_filter hlink
  rcases (avalues_mem_iff _ hlm.1 link).mp hmem with ⟨k, hk⟩
  exact dir_type_iff link.type link.direction (hlm.2 k link hk)

def c10Run : Except BuildErr GraphOutput × List FetchEvent :=
  buildGraphT p8 Schedule.referencesFirst "W1000" (some "1") (some "20")

def c10Out : GraphOutput := c10Run.1.toOption.getD default

theorem c10_direction_determined_by_type_witness :
    (⟨CID, "A", LinkType.cited_by, Direction.forward⟩ : GraphLink) ∈
      c10Out.links ∧
    ((⟨CID, "A", LinkType.cited_by, Direction.forward⟩ : GraphLink).type =
        LinkType.cited_by ↔
      (⟨CID, "A", LinkType.cited_by, Direction.forward⟩ :
        GraphLink).direction = Direction.forward) := by
  have hrun : buildGraphT p8 Schedule.referencesFirst "W1000" (some "1")
      (some "20") = (.ok c10Out, c10Run.2) := by decide
  have hmem : (⟨CID, "A", LinkType.cited_by, Direction.forward⟩ :
      GraphLink) ∈ c10Out.links := by decide
  exact ⟨hmem, (c10_direction_determined_by_type p8 Schedule.referencesFirst
    "W1000" (some "1") (some "20") c10Out c10Run.2 hrun _ hmem).2⟩

/-! ## Claim C8: schedule (in)dependence

The counterexample below shows the output depends on which side completes
first when the provider's fetch channels disagree about a work.  The
amended claim restores determinism under a consistency hypothesis: every
record any fetch returns is the unique record of its id.  The development
computes each side's accepted pairs as a pure function of the provider
(`sideLevelsPure`) and shows the two side orders produce maps with equal
lookups. -/

/-- A provider whose responses are mutually consistent: every work record
returned by any fetch channel is the single canonical record of its id
(`canon`), and canonical ids are non-empty. -/
structure Consistent (p : Provider) (canon : String → Work) : Prop where
  byId : ∀ x w, p.getWorkById x = some w → w = canon w.id
  byIds : ∀ ids w, w ∈ p.getWorksByIds ids → w = canon w.id
  citers : ∀ x lim w, w ∈ p.getCitingWorks x lim → w = canon w.id
  idNe : ∀ x, (canon x).id ≠ ""

/-- Every cached record is the canonical record of its key. -/
def CacheCanon (canon : String → Work) (st : BuildState) : Prop :=
  ∀ k w, alookup st.workCache k = some w → w = canon k

/-- `getTopReferences`' child list, as a pure function of the provider. -/
def topReferencesPure (p : Provider) (parent : Work) (lim : Nat) :
    List Work :=
  let refs := parent.referenced_works
  if refs.isEmpty then []
  else
    let candidates := refs.take REFERENCE_CANDIDATE_CAP
    let works := p.getWorksByIds candidates
    let worksById := works.foldl (fun m w => aset m w.id w) []
    let ordered := refs.filterMap (fun id => alookup worksById id)
    (sortByInfluence ordered).take lim

/-- `getTopCitations`' child list, as a pure function of the provider. -/
def topCitationsPure (p : Provider) (parentId : String) (lim : Nat) :
    List Work :=
  (sortByInfluence (p.getCitingWorks parentId (min 100 ((lim : Int) * 3)))).take lim

/-- One frontier member's accepted pairs when its cached record is the
canonical one. -/
def expandParentPure (p : Provider) (canon : String → Work)
    (side : LinkType) (ppl : Nat) (pid : String) : List PCPair :=
  let parent := canon pid
  let children :=
    match side with
    | .references => topReferencesPure p parent ppl
    | .cited_by => topCitationsPure p parent.id ppl
  (children.filter
    (fun c => isTemporallyConsistent parent.year c.year side)).map
    (fun c => ⟨parent, c⟩)

/-- One level's accepted pairs. -/
def levelPairsPure (p : Provider) (canon : String → Work) (side : LinkType)
    (limit : Nat) (frontier : List String) : List PCPair :=
  let ppl := max 1 (limit / frontier.length)
  (stableSort pairInfluenceLE (uniqueByChild
    ((frontier.map (expandParentPure p canon side ppl)).flatten))).take limit

/-- All levels' accepted pairs, labelled with their level number. -/
def sideLevelsPure (p : Provider) (canon : String → Work) (side : LinkType)
    (limit : Nat) : Nat → Nat → List String → List (Nat × List PCPair)
  | 0, _, _ => []
  | rem + 1, level, frontier =>
      if frontier.isEmpty then []
      else
        let limited := levelPairsPure p canon side limit frontier
        (level, limited) ::
          sideLevelsPure p canon side limit rem (level + 1)
            (setDedup (limited.map (fun pr => pr.child.id)))

/-- The node-map effect of accepting one pair. -/
def pairNodeEvent (side : LinkType) (level : Nat) (pr : PCPair) :
    Work × Side × Nat :=
  (pr.child, sideTag side, level)

/-- The link-map effect of accepting one pair. -/
def pairLinkEvent (side : LinkType) (pr : PCPair) : GraphLink :=
  { source := pr.parent.id, target := pr.child.id, type := side,
    direction := dirTag side }

/-- `addNode`'s effect on the node map alone. -/
def nodeStep (nm : List (String × GraphNode)) (ev : Work × Side × Nat) :
    List (String × GraphNode) :=
  match alookup nm ev.1.id with
  | none => aset nm ev.1.id (nodeOfWork ev.1 ev.2.1 ev.2.2)
  | some existing =>
      aset nm ev.1.id
        { nodeOfWork ev.1 ev.2.1 ev.2.2 with
          side := mergeSide existing.side ev.2.1,
          depth := min existing.depth ev.2.2 }

/-- `addLink`'s effect on the link map alone (first insertion wins). -/
def linkStep (lm : List (String × GraphLink)) (ev : GraphLink) :
    List (String × GraphLink) :=
  match alookup lm (linkKey ev.source ev.target ev.type) with
  | some _ => lm
  | none => aset lm (linkKey ev.source ev.target ev.type) ev

def sideNodeEvents (p : Provider) (canon : String → Work) (side : LinkType)
    (limit rem level : Nat) (frontier : List String) :
    List (Work × Side × Nat) :=
  ((sideLevelsPure p canon side limit rem level frontier).map
    (fun lv => lv.2.map (pairNodeEvent side lv.1))).flatten

def sideLinkEvents (p : Provider) (canon : String → Work) (side : LinkType)
    (limit rem level : Nat) (frontier : List String) : List GraphLink :=
  ((sideLevelsPure p canon side limit rem level frontier).map
    (fun lv => lv.2.map (pairLinkEvent side))).flatten

theorem akeys_lookup_some {α : Type} (m : List (String × α)) (k : String)
    (hk : k ∈ akeys m) : ∃ v, alookup m k = some v := by
  cases h : alookup m k with
  | none => exact absurd hk ((alookup_eq_none_iff m k).mp h)
  | some v => exact ⟨v, rfl⟩

theorem akeys_aset_mem_iff {α : Type} (m : List (String × α)) (k k2 : String)
    (v : α) : k2 ∈ akeys (aset m k v) ↔ k2 ∈ akeys m ∨ k2 = k := by
  by_cases hk : k ∈ akeys m
  · rw [akeys_aset_mem m k v hk]
    constructor
    · exact Or.inl
    · rintro (h | h)
      · exact h
      · exact h ▸ hk
  · rw [akeys_aset_not_mem m k v hk]
    simp [List.mem_append]

theorem getTopReferences_fst (p : Provider) (parent : Work) (lim : Nat)
    (st : BuildState) :
    (getTopReferences p parent lim st).1 = topReferencesPure p parent lim ∧
    (getTopReferences p parent lim st).2.workCache = st.workCache := by
  simp only [getTopReferences, topReferencesPure]
  split <;> exact ⟨rfl, rfl⟩

theorem getTopCitations_fst (p : Provider) (parentId : String) (lim : Nat)
    (st : BuildState) :
    (getTopCitations p parentId lim st).1 = topCitationsPure p parentId lim ∧
    (getTopCitations p parentId lim st).2.workCache = st.workCache :=
  ⟨rfl, rfl⟩

theorem getWorkOrFetch_cached (p : Provider) (id : String) (st : BuildState)
    (w : Work) (h : alookup st.workCache id = some w) :
    getWorkOrFetch p id st = (some w, st) := by
  simp only [getWorkOrFetch, h]

/-- On a cache hit for the canonical record, one frontier member's
contribution is its pure counterpart and the cache is untouched. -/
theorem expandParent_cached (p : Provider) (canon : String → Work)
    (side : LinkType) (ppl : Nat) (pid : String) (st : BuildState)
    (h : alookup st.workCache pid = some (canon pid)) :
    (expandParent p side ppl pid st).1 =
      expandParentPure p canon side ppl pid ∧
    (expandParent p side ppl pid st).2.workCache = st.workCache := by
  simp only [expandParent, getWorkOrFetch_cached p pid st (canon pid) h]
  cases side with
  | references =>
      have h2 := getTopReferences_fst p (canon pid) ppl st
      simp only [expandParentPure]
      exact ⟨by rw [h2.1], h2.2⟩
  | cited_by =>
      have h2 := getTopCitations_fst p (canon pid).id ppl st
      simp only [expandParentPure]
      exact ⟨by rw [h2.1], h2.2⟩

/-- When every frontier member has its canonical record cached, the
collected pair list is pure and the cache is untouched. -/
theorem collectPairs_pure (p : Provider) (canon : String → Work)
    (side : LinkType) (ppl : Nat) :
    ∀ (frontier : List String) (st : BuildState),
    CacheCanon canon st →
    (∀ pid ∈ frontier, pid ∈ akeys st.workCache) →
    (collectPairs p side ppl frontier st).1 =
      (frontier.map (expandParentPure p canon side ppl)).flatten ∧
    (collectPairs p side ppl frontier st).2.workCache = st.workCache := by
  intro frontier
  induction frontier with
  | nil => intro st _ _; exact ⟨rfl, rfl⟩
  | cons pid rest ih =>
      intro st hcc hfr
      obtain ⟨w, hw⟩ := akeys_lookup_some st.workCache pid
        (hfr pid (List.mem_cons_self pid rest))
      have hwc : w = canon pid := hcc pid w hw
      subst hwc
      have hep := expandParent_cached p canon side ppl pid st hw
      have hrest := ih (expandParent p side ppl pid st).2
        (fun k v hkv => hcc k v (hep.2 ▸ hkv))
        (fun q hq => hep.2.symm ▸ hfr q (List.mem_cons_of_mem _ hq))
      constructor
      · show (expandParent p side ppl pid st).1 ++
          (collectPairs p side ppl rest
            (expandParent p side ppl pid st).2).1 = _
        rw [hep.1, hrest.1]
        simp
      · show (collectPairs p side ppl rest
          (expandParent p side ppl pid st).2).2.workCache = st.workCache
        rw [hrest.2, hep.2]

theorem addNode_workCache (w : Work) (s : Side) (d : Nat) (st : BuildState) :
    (addNode w s d st).workCache = (cacheWork w st).workCache := by
  simp only [addNode]
  cases alookup (cacheWork w st).nodeMap w.id <;> rfl

theorem addLink_workCache (s t : String) (ty : LinkType) (dd : Direction)
    (st : BuildState) : (addLink s t ty dd st).workCache = st.workCache := by
  simp only [addLink]
  cases alookup st.linkMap (linkKey s t ty) <;> rfl

/-- `cacheWork` preserves cache canonicity, never drops keys, and records a
canonical work with a non-empty id under its own id. -/
theorem cacheWork_cache (canon : String → Work) (w : Work) (st : BuildState)
    (hw : w = canon w.id) (hcc : CacheCanon canon st) :
    CacheCanon canon (cacheWork w st) ∧
    (∀ k, k ∈ akeys st.workCache → k ∈ akeys (cacheWork w st).workCache) ∧
    (w.id ≠ "" → w.id ∈ akeys (cacheWork w st).workCache) := by
  by_cases hid : w.id = ""
  · simp only [cacheWork, if_pos hid]
    exact ⟨hcc, fun k hk => hk, fun h => absurd hid h⟩
  · simp only [cacheWork, if_neg hid]
    refine ⟨?_, ?_, ?_⟩
    · intro k v hkv
      rcases alookup_aset_cases st.workCache w.id k w v hkv with
        ⟨hk, hv⟩ | ⟨hk, hv⟩
      · rw [hv, hk]; exact hw
      · exact hcc k v hv
    · intro k hk
      exact (akeys_aset_mem_iff st.workCache w.id k w).mpr (Or.inl hk)
    · intro _
      exact (akeys_aset_mem_iff st.workCache w.id w.id w).mpr (Or.inr rfl)

/-- The accept loop's node-map effect is a pure event fold. -/
theorem acceptPairs_nodeMap (side : LinkType) (level : Nat) :
    ∀ (limited : List PCPair) (st : BuildState),
    (acceptPairs side level limited st).nodeMap =
      (limited.map (pairNodeEvent side level)).foldl nodeStep st.nodeMap := by
  intro limited
  induction limited with
  | nil => intro st; rfl
  | cons pr rest ih =>
      intro st
      have h1 : acceptPairs side level (pr :: rest) st =
          acceptPairs side level rest
            (addLink pr.parent.id pr.child.id side (dirTag side)
              (addNode pr.child (sideTag side) level st)) := rfl
      rw [h1, ih]
      have h2 : (addLink pr.parent.id pr.child.id side (dirTag side)
          (addNode pr.child (sideTag side) level st)).nodeMap =
          nodeStep st.nodeMap (pairNodeEvent side level pr) := by
        rw [addLink_nodeMap]
        simp only [addNode, nodeStep, pairNodeEvent]
        rw [(cacheWork_maps pr.child st).1]
        cases alookup st.nodeMap pr.child.id <;> rfl
      rw [h2]
      rfl

/-- The accept loop's link-map effect is a pure event fold. -/
theorem acceptPairs_linkMap (side : LinkType) (level : Nat) :
    ∀ (limited : List PCPair) (st : BuildState),
    (acceptPairs side level limited st).linkMap =
      (limited.map (pairLinkEvent side)).foldl linkStep st.linkMap := by
  intro limited
  induction limited with
  | nil => intro st; rfl
  | cons pr rest ih =>
      intro st
      have h1 : acceptPairs side level (pr :: rest) st =
          acceptPairs side level rest
            (addLink pr.parent.id pr.child.id side (dirTag side)
              (addNode pr.child (sideTag side) level st)) := rfl
      rw [h1, ih]
      have h2 : (addLink pr.parent.id pr.child.id side (dirTag side)
          (addNode pr.child (sideTag side) level st)).linkMap =
          linkStep st.linkMap (pairLinkEvent side pr) := by
        simp only [addLink, linkStep, pairLinkEvent]
        rw [addNode_linkMap]
        cases alookup st.linkMap (linkKey pr.parent.id pr.child.id side) with
        | none => rfl
        | some v =>
            dsimp only
            exact addNode_linkMap pr.child (sideTag side) level st
      rw [h2]
      rfl

/-- The accept loop preserves cache canonicity, never drops cached keys,
and caches every accepted pair's child. -/
theorem acceptPairs_cache (canon : String → Work) (side : LinkType)
    (level : Nat) :
    ∀ (limited : List PCPair) (st : BuildState),
    (∀ pr ∈ limited, pr.child = canon pr.child.id ∧ pr.child.id ≠ "") →
    CacheCanon canon st →
    CacheCanon canon (acceptPairs side level limited st) ∧
    (∀ k, k ∈ akeys st.workCache →
      k ∈ akeys (acceptPairs side level limited st).workCache) ∧
    (∀ pr ∈ limited, pr.child.id ∈
      akeys (acceptPairs side level limited st).workCache) := by
  intro limited
  induction limited with
  | nil =>
      intro st _ hcc
      exact ⟨hcc, fun k hk => hk, fun pr hpr => absurd hpr (by simp)⟩
  | cons pr rest ih =>
      intro st hwf hcc
      have hcache1 : (addLink pr.parent.id pr.child.id side (dirTag side)
          (addNode pr.child (sideTag side) level st)).workCache =
          (cacheWork pr.child st).workCache := by
        rw [addLink_workCache, addNode_workCache]
      have hpr0 := hwf pr (List.mem_cons_self pr rest)
      have hcw := cacheWork_cache canon pr.child st hpr0.1 hcc
      have hcc1 : CacheCanon canon (addLink pr.parent.id pr.child.id side
          (dirTag side) (addNode pr.child (sideTag side) level st)) := by
        intro k v hkv
        rw [hcache1] at hkv
        exact hcw.1 k v hkv
      have hrest := ih (addLink pr.parent.id pr.child.id side (dirTag side)
          (addNode pr.child (sideTag side) level st))
        (fun q hq => hwf q (List.mem_cons_of_mem pr hq)) hcc1
      have hunf : acceptPairs side level (pr :: rest) st =
          acceptPairs side level rest
            (addLink pr.parent.id pr.child.id side (dirTag side)
              (addNode pr.child (sideTag side) level st)) := rfl
      refine ⟨?_, ?_, ?_⟩
      · rw [hunf]; exact hrest.1
      · intro k hk
        rw [hunf]
        refine hrest.2.1 k ?_
        rw [hcache1]
        exact hcw.2.1 k hk
      · intro q hq
        rw [hunf]
        rcases List.mem_cons.mp hq with h1 | h1
        · subst h1
          refine hrest.2.1 q.child.id ?_
          rw [hcache1]
          exact hcw.2.2 hpr0.2
        · exact hrest.2.2 q h1

theorem uniqueByChild_subset (l : List PCPair) :
    ∀ e ∈ uniqueByChild l, e ∈ l := by
  intro e he
  have hinv : DedupInv l (l.foldl dedupStep []) := by
    have := dedupFold_inv l [] [] dedupInv_nil
    simpa using this
  obtain ⟨hnd, hval, -⟩ := hinv
  rcases (avalues_mem_iff (l.foldl dedupStep []) hnd e).mp he with ⟨k, hk⟩
  exact (hval k e hk).2.1

theorem topReferencesPure_mem (p : Provider) (parent : Work) (lim : Nat)
    (w : Work) (hw : w ∈ topReferencesPure p parent lim) :
    w ∈ p.getWorksByIds
      (parent.referenced_works.take REFERENCE_CANDIDATE_CAP) := by
  simp only [topReferencesPure, sortByInfluence] at hw
  by_cases he : parent.referenced_works.isEmpty
  · rw [if_pos he] at hw
    simp at hw
  · rw [if_neg he] at hw
    have h1 := List.mem_of_mem_take hw
    have h2 := (stableSort_perm influenceLE _).mem_iff.mp h1
    rcases List.mem_filterMap.mp h2 with ⟨r, hr, hlr⟩
    rcases worksById_lookup _ [] r w hlr with ⟨hm, -⟩ | hcon
    · exact hm
    · simp [alookup] at hcon

theorem topCitationsPure_mem (p : Provider) (pid : String) (lim : Nat)
    (w : Work) (hw : w ∈ topCitationsPure p pid lim) :
    w ∈ p.getCitingWorks pid (min 100 ((lim : Int) * 3)) := by
  simp only [topCitationsPure, sortByInfluence] at hw
  exact (stableSort_perm influenceLE _).mem_iff.mp (List.mem_of_mem_take hw)

/-- Every pure pair of one frontier member has the canonical parent record,
a canonical child record, and a non-empty child id. -/
theorem expandParentPure_wf (p : Provider) (canon : String → Work)
    (hcons : Consistent p canon) (side : LinkType) (ppl : Nat) (pid : String)
    (pr : PCPair) (hpr : pr ∈ expandParentPure p canon side ppl pid) :
    pr.parent = canon pid ∧ pr.child = canon pr.child.id ∧
    pr.child.id ≠ "" := by
  simp only [expandParentPure] at hpr
  rcases List.mem_map.mp hpr with ⟨c, hc, hprc⟩
  have hcmem := List.mem_filter.mp hc
  have hchild : c = canon c.id := by
    cases side with
    | references =>
        exact hcons.byIds _ c (topReferencesPure_mem p (canon pid) ppl c hcmem.1)
    | cited_by =>
        exact hcons.citers _ _ c
          (topCitationsPure_mem p (canon pid).id ppl c hcmem.1)
  subst hprc
  refine ⟨rfl, hchild, ?_⟩
  intro h0
  exact hcons.idNe c.id ((congrArg Work.id hchild).symm.trans h0)

/-- Every pair a level accepts has a canonical child record with a
non-empty id. -/
theorem levelPairsPure_wf (p : Provider) (canon : String → Work)
    (hcons : Consistent p canon) (side : LinkType) (limit : Nat)
    (frontier : List String) (pr : PCPair)
    (hpr : pr ∈ levelPairsPure p canon side limit frontier) :
    pr.child = canon pr.child.id ∧ pr.child.id ≠ "" := by
  simp only [levelPairsPure] at hpr
  have h1 := List.mem_of_mem_take hpr
  have h2 := (stableSort_perm pairInfluenceLE _).mem_iff.mp h1
  have h3 := uniqueByChild_subset _ pr h2
  rcases List.mem_flatten.mp h3 with ⟨lpart, hlp, hprl⟩
  rcases List.mem_map.mp hlp with ⟨pid, hpid, hlp2⟩
  subst hlp2
  have hw := expandParentPure_wf p canon hcons side _ pid pr hprl
  exact ⟨hw.2.1, hw.2.2⟩

theorem setDedup_subset (l : List String) : ∀ x ∈ setDedup l, x ∈ l := by
  have h : ∀ (l acc : List String) (x : String),
      x ∈ l.foldl (fun acc x => if x ∈ acc then acc else acc ++ [x]) acc →
      x ∈ acc ∨ x ∈ l := by
    intro l
    induction l with
    | nil => intro acc x hx; exact Or.inl hx
    | cons y ys ih =>
        intro acc x hx
        rcases ih (if y ∈ acc then acc else acc ++ [y]) x hx with h1 | h1
        · by_cases hy : y ∈ acc
          · rw [if_pos hy] at h1
            exact Or.inl h1
          · rw [if_neg hy] at h1
            rcases List.mem_append.mp h1 with h2 | h2
            · exact Or.inl h2
            · exact Or.inr (List.mem_cons.mpr
                (Or.inl (List.mem_singleton.mp h2)))
        · exact Or.inr (List.mem_cons_of_mem y h1)
  intro x hx
  rcases h l [] x hx with h1 | h1
  · simp at h1
  · exact h1

/-- The level loop under a consistent provider, started from a canonical
cache that covers the frontier: the node and link maps evolve by the pure
event folds, and the cache stays canonical and monotone. -/
theorem expandLevels_pure (p : Provider) (canon : String → Work)
    (hcons : Consistent p canon) (side : LinkType) (limit : Nat) :
    ∀ (rem level : Nat) (frontier : List String) (st : BuildState),
    CacheCanon canon st →
    (∀ pid ∈ frontier, pid ∈ akeys st.workCache) →
    (expandLevels p side limit rem level frontier st).nodeMap =
      (sideNodeEvents p canon side limit rem level frontier).foldl
        nodeStep st.nodeMap ∧
    (expandLevels p side limit rem level frontier st).linkMap =
      (sideLinkEvents p canon side limit rem level frontier).foldl
        linkStep st.linkMap ∧
    CacheCanon canon (expandLevels p side limit rem level frontier st) ∧
    (∀ k, k ∈ akeys st.workCache →
      k ∈ akeys (expandLevels p side limit rem level frontier st).workCache) := by
  intro rem
  induction rem with
  | zero =>
      intro level frontier st hcc hfr
      exact ⟨rfl, rfl, hcc, fun k hk => hk⟩
  | succ rem ih =>
      intro level frontier st hcc hfr
      by_cases hf : frontier.isEmpty
      · have hstop : expandLevels p side limit (rem + 1) level frontier st
            = st := by
          rw [expandLevels, if_pos hf]
        have hsl : sideLevelsPure p canon side limit (rem + 1) level frontier
            = [] := by
          rw [sideLevelsPure, if_pos hf]
        refine ⟨?_, ?_, ?_, ?_⟩
        · rw [hstop]
          simp [sideNodeEvents, hsl]
        · rw [hstop]
          simp [sideLinkEvents, hsl]
        · rw [hstop]; exact hcc
        · intro k hk; rw [hstop]; exact hk
      · have hcol := collectPairs_pure p canon side
          (max 1 (limit / frontier.length)) frontier st hcc hfr
        have hmaps := collectPairs_maps p side
          (max 1 (limit / frontier.length)) frontier st
        have hLP : (stableSort pairInfluenceLE (uniqueByChild
            (collectPairs p side (max 1 (limit / frontier.length))
              frontier st).1)).take limit =
            levelPairsPure p canon side limit frontier := by
          simp only [levelPairsPure, hcol.1]
        have hexp : expandLevels p side limit (rem + 1) level frontier st =
            expandLevels p side limit rem (level + 1)
              (setDedup ((levelPairsPure p canon side limit frontier).map
                (fun pr => pr.child.id)))
              (acceptPairs side level
                (levelPairsPure p canon side limit frontier)
                (collectPairs p side (max 1 (limit / frontier.length))
                  frontier st).2) := by
          rw [expandLevels, if_neg hf]
          simp only [hLP]
        have hwf : ∀ pr ∈ levelPairsPure p canon side limit frontier,
            pr.child = canon pr.child.id ∧ pr.child.id ≠ "" :=
          fun pr hpr =>
            levelPairsPure_wf p canon hcons side limit frontier pr hpr
        have hccC : CacheCanon canon
            (collectPairs p side (max 1 (limit / frontier.length))
              frontier st).2 := by
          intro k v hkv
          exact hcc k v (hcol.2 ▸ hkv)
        have hacc := acceptPairs_cache canon side level
          (levelPairsPure p canon side limit frontier)
          (collectPairs p side (max 1 (limit / frontier.length)) frontier st).2
          hwf hccC
        have hfr1 : ∀ pid ∈ setDedup
            ((levelPairsPure p canon side limit frontier).map
              (fun pr => pr.child.id)),
            pid ∈ akeys (acceptPairs side level
              (levelPairsPure p canon side limit frontier)
              (collectPairs p side (max 1 (limit / frontier.length))
                frontier st).2).workCache := by
          intro pid hpid
          rcases List.mem_map.mp (setDedup_subset _ pid hpid) with
            ⟨pr, hpr, hpid2⟩
          rw [← hpid2]
          exact hacc.2.2 pr hpr
        have hih := ih (level + 1)
          (setDedup ((levelPairsPure p canon side limit frontier).map
            (fun pr => pr.child.id)))
          (acceptPairs side level (levelPairsPure p canon side limit frontier)
            (collectPairs p side (max 1 (limit / frontier.length))
              frontier st).2)
          hacc.1 hfr1
        have hSL : sideLevelsPure p canon side limit (rem + 1) level frontier =
            (level, levelPairsPure p canon side limit frontier) ::
            sideLevelsPure p canon side limit rem (level + 1)
              (setDedup ((levelPairsPure p canon side limit frontier).map
                (fun pr => pr.child.id))) := by
          rw [sideLevelsPure, if_neg hf]
        have hstn : (acceptPairs side level
            (levelPairsPure p canon side limit frontier)
            (collectPairs p side (max 1 (limit / frontier.length))
              frontier st).2).nodeMap =
            ((levelPairsPure p canon side limit frontier).map
              (pairNodeEvent side level)).foldl nodeStep st.nodeMap := by
          rw [acceptPairs_nodeMap, hmaps.1]
        have hstl : (acceptPairs side level
            (levelPairsPure p canon side limit frontier)
            (collectPairs p side (max 1 (limit / frontier.length))
              frontier st).2).linkMap =
            ((levelPairsPure p canon side limit frontier).map
              (pairLinkEvent side)).foldl linkStep st.linkMap := by
          rw [acceptPairs_linkMap, hmaps.2]
        refine ⟨?_, ?_, ?_, ?_⟩
        · rw [hexp, hih.1, hstn]
          simp only [sideNodeEvents, hSL, List.map_cons, List.flatten_cons,
            List.foldl_append]
        · rw [hexp, hih.2.1, hstl]
          simp only [sideLinkEvents, hSL, List.map_cons, List.flatten_cons,
            List.foldl_append]
        · rw [hexp]
          exact hih.2.2.1
        · intro k hk
          rw [hexp]
          refine hih.2.2.2 k (hacc.2.1 k ?_)
          rw [hcol.2]
          exact hk

/-! ### Order-independence of the per-key effects -/

theorem mergeSide_comm (a b : Side) : mergeSide a b = mergeSide b a := by
  cases a <;> cases b <;> decide

theorem mergeSide_left_comm (e a b : Side) :
    mergeSide (mergeSide e a) b = mergeSide (mergeSide e b) a := by
  cases e <;> cases a <;> cases b <;> decide

/-- The per-key effect of one node event whose work record is `w`. -/
def nodeMergeOne (w : Work) (cur : Option GraphNode) (sd : Side × Nat) :
    Option GraphNode :=
  match cur with
  | none => some (nodeOfWork w sd.1 sd.2)
  | some ex => some { nodeOfWork w sd.1 sd.2 with
      side := mergeSide ex.side sd.1, depth := min ex.depth sd.2 }

theorem nodeMergeOne_comm (w : Work) (cur : Option GraphNode)
    (a b : Side × Nat) :
    nodeMergeOne w (nodeMergeOne w cur a) b =
      nodeMergeOne w (nodeMergeOne w cur b) a := by
  cases cur with
  | none =>
      simp only [nodeMergeOne, nodeOfWork]
      rw [mergeSide_comm a.1 b.1, min_comm a.2 b.2]
  | some ex =>
      simp only [nodeMergeOne, nodeOfWork]
      rw [mergeSide_left_comm ex.side a.1 b.1, min_right_comm ex.depth a.2 b.2]

/-- Lookup after a node-event fold: only the events keyed at `k` matter, and
they act through `nodeMergeOne` on the initial lookup. -/
theorem nodeFold_lookup (k : String) (w : Work) :
    ∀ (evs : List (Work × Side × Nat)) (nm : List (String × GraphNode)),
    (∀ ev ∈ evs, ev.1.id = k → ev.1 = w) →
    alookup (evs.foldl nodeStep nm) k =
      ((evs.filter (fun ev => ev.1.id == k)).map (fun ev => ev.2)).foldl
        (nodeMergeOne w) (alookup nm k) := by
  intro evs
  induction evs with
  | nil => intro nm _; rfl
  | cons ev rest ih =>
      intro nm hwf
      rw [List.foldl_cons]
      by_cases hk : ev.1.id = k
      · have hw : ev.1 = w := hwf ev (List.mem_cons_self ev rest) hk
        have hstep : alookup (nodeStep nm ev) k =
            nodeMergeOne w (alookup nm k) ev.2 := by
          simp only [nodeStep, nodeMergeOne, hk]
          cases alookup nm k with
          | none => rw [alookup_aset_self, hw]
          | some ex => rw [alookup_aset_self, hw]
        rw [ih (nodeStep nm ev) (fun e he hek =>
          hwf e (List.mem_cons_of_mem ev he) hek), hstep]
        have hfilter : (ev :: rest).filter (fun e => e.1.id == k) =
            ev :: rest.filter (fun e => e.1.id == k) := by
          simp [List.filter_cons, hk]
        rw [hfilter]
        rfl
      · have hstep : alookup (nodeStep nm ev) k = alookup nm k := by
          simp only [nodeStep]
          cases alookup nm ev.1.id with
          | none => exact alookup_aset_ne nm ev.1.id k _ (Ne.symm hk)
          | some ex => exact alookup_aset_ne nm ev.1.id k _ (Ne.symm hk)
        rw [ih (nodeStep nm ev) (fun e he hek =>
          hwf e (List.mem_cons_of_mem ev he) hek), hstep]
        have hfilter : (ev :: rest).filter (fun e => e.1.id == k) =
            rest.filter (fun e => e.1.id == k) := by
          simp [List.filter_cons, hk]
        rw [hfilter]

/-- Two wellformed node-event batches commute at every lookup. -/
theorem nodeFold_swap (canon : String → Work)
    (A B : List (Work × Side × Nat))
    (hA : ∀ ev ∈ A, ev.1 = canon ev.1.id)
    (hB : ∀ ev ∈ B, ev.1 = canon ev.1.id)
    (nm : List (String × GraphNode)) (k : String) :
    alookup ((A ++ B).foldl nodeStep nm) k =
      alookup ((B ++ A).foldl nodeStep nm) k := by
  have hABk : ∀ ev ∈ A ++ B, ev.1.id = k → ev.1 = canon k := by
    intro ev he hk
    rcases List.mem_append.mp he with h1 | h1
    · exact hk ▸ hA ev h1
    · exact hk ▸ hB ev h1
  have hBAk : ∀ ev ∈ B ++ A, ev.1.id = k → ev.1 = canon k := by
    intro ev he hk
    rcases List.mem_append.mp he with h1 | h1
    · exact hk ▸ hB ev h1
    · exact hk ▸ hA ev h1
  rw [nodeFold_lookup k (canon k) (A ++ B) nm hABk,
      nodeFold_lookup k (canon k) (B ++ A) nm hBAk]
  refine List.Perm.foldl_eq' ?_ ?_ (alookup nm k)
  · simp only [List.filter_append, List.map_append]
    exact List.perm_append_comm
  · intro x _ y _ z
    exact nodeMergeOne_comm (canon k) z x y

theorem linkKey_type_ne (s1 t1 s2 t2 : String) :
    linkKey s1 t1 LinkType.references ≠ linkKey s2 t2 LinkType.cited_by := by
  intro h
  have h2 := congrArg (fun x => x.data.reverse.head?) h
  simp [linkKey, linkTypeStr] at h2

/-- Lookup after a link-event fold: an existing entry wins; otherwise the
first event keyed at `k` wins. -/
theorem linkFold_lookup (k : String) :
    ∀ (evs : List GraphLink) (lm : List (String × GraphLink)),
    alookup (evs.foldl linkStep lm) k =
      match alookup lm k with
      | some v => some v
      | none =>
          evs.find? (fun ev => linkKey ev.source ev.target ev.type == k) := by
  intro evs
  induction evs with
  | nil =>
      intro lm
      rw [List.foldl_nil]
      cases alookup lm k <;> rfl
  | cons ev rest ih =>
      intro lm
      rw [List.foldl_cons, ih (linkStep lm ev)]
      by_cases hk : linkKey ev.source ev.target ev.type = k
      · cases hml : alookup lm k with
        | some v =>
            have hstep : linkStep lm ev = lm := by
              simp only [linkStep, hk, hml]
            rw [hstep, hml]
        | none =>
            have hstep : linkStep lm ev = aset lm k ev := by
              simp only [linkStep, hk, hml]
            rw [hstep, alookup_aset_self]
            have hfind : List.find? (fun ev2 =>
                linkKey ev2.source ev2.target ev2.type == k) (ev :: rest) =
                some ev := by
              simp [List.find?_cons, hk]
            rw [hfind]
      · have hstep : alookup (linkStep lm ev) k = alookup lm k := by
          simp only [linkStep]
          cases alookup lm (linkKey ev.source ev.target ev.type) with
          | some v => rfl
          | none => exact alookup_aset_ne lm _ k ev (Ne.symm hk)
        rw [hstep]
        have hfind : List.find? (fun ev2 =>
            linkKey ev2.source ev2.target ev2.type == k) (ev :: rest) =
            List.find? (fun ev2 =>
              linkKey ev2.source ev2.target ev2.type == k) rest := by
          simp [List.find?_cons, hk]
        rw [hfind]

/-- A references-side link-event batch and a cited_by-side one commute at
every lookup: their keys cannot collide (the key embeds the type). -/
theorem linkFold_swap (A B : List GraphLink)
    (hA : ∀ ev ∈ A, ev.type = LinkType.references)
    (hB : ∀ ev ∈ B, ev.type = LinkType.cited_by)
    (lm : List (String × GraphLink)) (k : String) :
    alookup ((A ++ B).foldl linkStep lm) k =
      alookup ((B ++ A).foldl linkStep lm) k := by
  rw [linkFold_lookup k (A ++ B) lm, linkFold_lookup k (B ++ A) lm]
  cases alookup lm k with
  | some v => rfl
  | none =>
      simp only [List.find?_append]
      cases hfa : A.find? (fun ev => linkKey ev.source ev.target ev.type == k) with
      | none => cases hfb : B.find? (fun ev =>
          linkKey ev.source ev.target ev.type == k) <;> rfl
      | some a =>
          cases hfb : B.find? (fun ev =>
              linkKey ev.source ev.target ev.type == k) with
          | none => rfl
          | some b =>
              exfalso
              have ha := List.find?_some hfa
              have hma := List.mem_of_find?_eq_some hfa
              have hb := List.find?_some hfb
              have hmb := List.mem_of_find?_eq_some hfb
              have hka : linkKey a.source a.target a.type = k := by
                simpa using ha
              have hkb : linkKey b.source b.target b.type = k := by
                simpa using hb
              rw [hA a hma] at hka
              rw [hB b hmb] at hkb
              exact linkKey_type_ne a.source a.target b.source b.target
                (hka.trans hkb.symm)

theorem sideLevelsPure_mem (p : Provider) (canon : String → Work)
    (side : LinkType) (limit : Nat) :
    ∀ (rem level : Nat) (frontier : List String) (lv : Nat × List PCPair),
    lv ∈ sideLevelsPure p canon side limit rem level frontier →
    ∃ fr, lv.2 = levelPairsPure p canon side limit fr := by
  intro rem
  induction rem with
  | zero =>
      intro level frontier lv h
      simp [sideLevelsPure] at h
  | succ rem ih =>
      intro level frontier lv h
      by_cases hf : frontier.isEmpty
      · rw [sideLevelsPure, if_pos hf] at h
        simp at h
      · have h2 : lv ∈ (level, levelPairsPure p canon side limit frontier) ::
            sideLevelsPure p canon side limit rem (level + 1)
              (setDedup ((levelPairsPure p canon side limit frontier).map
                (fun pr => pr.child.id))) := by
          rw [sideLevelsPure, if_neg hf] at h
          exact h
        rcases List.mem_cons.mp h2 with h1 | h1
        · exact ⟨frontier, by rw [h1]⟩
        · exact ih (level + 1) _ lv h1

/-- Every node event of a side carries a canonical work record. -/
theorem sideNodeEvents_wf (p : Provider) (canon : String → Work)
    (hcons : Consistent p canon) (side : LinkType) (limit : Nat)
    (rem level : Nat) (frontier : List String) :
    ∀ ev ∈ sideNodeEvents p canon side limit rem level frontier,
    ev.1 = canon ev.1.id := by
  intro ev hev
  rcases List.mem_flatten.mp hev with ⟨part, hpart, hevp⟩
  rcases List.mem_map.mp hpart with ⟨lv, hlv, hpart2⟩
  subst hpart2
  rcases List.mem_map.mp hevp with ⟨pr, hpr, hev2⟩
  subst hev2
  rcases sideLevelsPure_mem p canon side limit rem level frontier lv hlv with
    ⟨fr, hfr⟩
  rw [hfr] at hpr
  exact (levelPairsPure_wf p canon hcons side limit fr pr hpr).1

/-- Every link event of a side carries that side as its type. -/
theorem sideLinkEvents_type (p : Provider) (canon : String → Work)
    (side : LinkType) (limit : Nat) (rem level : Nat)
    (frontier : List String) :
    ∀ ev ∈ sideLinkEvents p canon side limit rem level frontier,
    ev.type = side := by
  intro ev hev
  rcases List.mem_flatten.mp hev with ⟨part, hpart, hevp⟩
  rcases List.mem_map.mp hpart with ⟨lv, hlv, hpart2⟩
  subst hpart2
  rcases List.mem_map.mp hevp with ⟨pr, hpr, hev2⟩
  subst hev2
  rfl

/-- Running the two sides in either order produces the same node and link
lookups, provided the starting cache is canonical and covers the center. -/
theorem expandSide_swap_lookup (p : Provider) (canon : String → Work)
    (hcons : Consistent p canon) (cid : String) (depthN limitN : Nat)
    (st : BuildState) (hcc : CacheCanon canon st)
    (hcid : cid ∈ akeys st.workCache) :
    (∀ k, alookup (expandSide p cid depthN limitN .cited_by
        (expandSide p cid depthN limitN .references st)).nodeMap k =
      alookup (expandSide p cid depthN limitN .references
        (expandSide p cid depthN limitN .cited_by st)).nodeMap k) ∧
    (∀ k, alookup (expandSide p cid depthN limitN .cited_by
        (expandSide p cid depthN limitN .references st)).linkMap k =
      alookup (expandSide p cid depthN limitN .references
        (expandSide p cid depthN limitN .cited_by st)).linkMap k) := by
  simp only [expandSide]
  have hfr : ∀ pid ∈ [cid], pid ∈ akeys st.workCache := by
    intro pid hpid
    rw [List.mem_singleton.mp hpid]
    exact hcid
  have hR := expandLevels_pure p canon hcons .references limitN depthN 1
    [cid] st hcc hfr
  have hC := expandLevels_pure p canon hcons .cited_by limitN depthN 1
    [cid] st hcc hfr
  have hfrR : ∀ pid ∈ [cid], pid ∈ akeys
      (expandLevels p .references limitN depthN 1 [cid] st).workCache := by
    intro pid hpid
    rw [List.mem_singleton.mp hpid]
    exact hR.2.2.2 cid hcid
  have hfrC : ∀ pid ∈ [cid], pid ∈ akeys
      (expandLevels p .cited_by limitN depthN 1 [cid] st).workCache := by
    intro pid hpid
    rw [List.mem_singleton.mp hpid]
    exact hC.2.2.2 cid hcid
  have hCafterR := expandLevels_pure p canon hcons .cited_by limitN depthN 1
    [cid] (expandLevels p LinkType.references limitN depthN 1 [cid] st)
    hR.2.2.1 hfrR
  have hRafterC := expandLevels_pure p canon hcons .references limitN depthN 1
    [cid] (expandLevels p LinkType.cited_by limitN depthN 1 [cid] st)
    hC.2.2.1 hfrC
  constructor
  · intro k
    rw [hCafterR.1, hR.1, ← List.foldl_append, hRafterC.1, hC.1,
      ← List.foldl_append]
    exact nodeFold_swap canon
      (sideNodeEvents p canon .references limitN depthN 1 [cid])
      (sideNodeEvents p canon .cited_by limitN depthN 1 [cid])
      (sideNodeEvents_wf p canon hcons .references limitN depthN 1 [cid])
      (sideNodeEvents_wf p canon hcons .cited_by limitN depthN 1 [cid])
      st.nodeMap k
  · intro k
    rw [hCafterR.2.1, hR.2.1, ← List.foldl_append, hRafterC.2.1, hC.2.1,
      ← List.foldl_append]
    exact linkFold_swap
      (sideLinkEvents p canon .references limitN depthN 1 [cid])
      (sideLinkEvents p canon .cited_by limitN depthN 1 [cid])
      (sideLinkEvents_type p canon .references limitN depthN 1 [cid])
      (sideLinkEvents_type p canon .cited_by limitN depthN 1 [cid])
      st.linkMap k

/-- The whole expansion phase gives the same node and link lookups under
either schedule when the provider is consistent. -/
theorem runSides_lookup_eq (p : Provider) (canon : String → Work)
    (hcons : Consistent p canon) (center : Work) (wid : String)
    (hcenter : p.getWorkById wid = some center)
    (depthN limitN : Nat) (sched1 sched2 : Schedule) :
    (∀ k, alookup (runSides p sched1 center wid depthN limitN).nodeMap k =
      alookup (runSides p sched2 center wid depthN limitN).nodeMap k) ∧
    (∀ k, alookup (runSides p sched1 center wid depthN limitN).linkMap k =
      alookup (runSides p sched2 center wid depthN limitN).linkMap k) := by
  have hcanon : center = canon center.id := hcons.byId wid center hcenter
  have hcid : center.id ≠ "" := by
    intro h0
    exact hcons.idNe center.id ((congrArg Work.id hcanon).symm.trans h0)
  have hcw : (cacheWork center
      { nodeMap := [], linkMap := [], workCache := [],
        trace := [FetchEvent.byId wid] }).workCache =
      aset [] center.id center := by
    simp [cacheWork, hcid]
  have hcc1 : CacheCanon canon (addNode center Side.center 0
      { nodeMap := [], linkMap := [], workCache := [],
        trace := [FetchEvent.byId wid] }) := by
    intro k v hkv
    rw [addNode_workCache, hcw] at hkv
    rcases alookup_aset_cases [] center.id k center v hkv with
      ⟨hk, hv⟩ | ⟨hk, hv⟩
    · rw [hv, hk]; exact hcanon
    · simp [alookup] at hv
  have hmem1 : center.id ∈ akeys (addNode center Side.center 0
      { nodeMap := [], linkMap := [], workCache := [],
        trace := [FetchEvent.byId wid] }).workCache := by
    rw [addNode_workCache, hcw]
    exact (akeys_aset_mem_iff [] center.id center.id center).mpr (Or.inr rfl)
  cases sched1 with
  | referencesFirst =>
      cases sched2 with
      | referencesFirst => exact ⟨fun k => rfl, fun k => rfl⟩
      | citationsFirst =>
          have hsw := expandSide_swap_lookup p canon hcons center.id
            depthN limitN (addNode center Side.center 0
              { nodeMap := [], linkMap := [], workCache := [],
                trace := [FetchEvent.byId wid] }) hcc1 hmem1
          exact ⟨hsw.1, hsw.2⟩
  | citationsFirst =>
      cases sched2 with
      | referencesFirst =>
          have hsw := expandSide_swap_lookup p canon hcons center.id
            depthN limitN (addNode center Side.center 0
              { nodeMap := [], linkMap := [], workCache := [],
                trace := [FetchEvent.byId wid] }) hcc1 hmem1
          exact ⟨fun k => (hsw.1 k).symm, fun k => (hsw.2 k).symm⟩
      | citationsFirst => exact ⟨fun k => rfl, fun k => rfl⟩

/-- Rebuilding a keyed map from its values (the final stable-node-map pass):
the last value with a given id wins. -/
theorem nodesFold_lookup (x : String) :
    ∀ (vs : List GraphNode) (m0 : List (String × GraphNode)),
    alookup (vs.foldl (fun m n => aset m n.id n) m0) x =
      match vs.reverse.find? (fun n => n.id == x) with
      | some n => some n
      | none => alookup m0 x := by
  intro vs
  induction vs with
  | nil => intro m0; rfl
  | cons v vs ih =>
      intro m0
      rw [List.foldl_cons, ih (aset m0 v.id v), List.reverse_cons,
        List.find?_append]
      cases hf : vs.reverse.find? (fun n => n.id == x) with
      | some n => rfl
      | none =>
          by_cases hx : v.id = x
          · have h1 : alookup (aset m0 v.id v) x = some v := by
              rw [← hx]
              exact alookup_aset_self m0 v.id v
            have h2 : [v].find? (fun n => n.id == x) = some v := by
              simp [List.find?, hx]
            rw [h1, h2]
            rfl
          · have h1 : alookup (aset m0 v.id v) x = alookup m0 x :=
              alookup_aset_ne m0 v.id x v (Ne.symm hx)
            have hbe : (v.id == x) = false := by
              simpa using hx
            have h2 : [v].find? (fun n => n.id == x) = none := by
              simp [List.find?, hbe]
            rw [h1, h2]
            rfl

/-- When the node map has unique keys and each node is keyed by its own id,
the rebuilt stable map has the same lookups. -/
theorem rebuild_lookup (nm : List (String × GraphNode))
    (hnd : (akeys nm).Nodup)
    (hid : ∀ k n, alookup nm k = some n → n.id = k) (x : String) :
    alookup ((avalues nm).foldl (fun m n => aset m n.id n) []) x =
      alookup nm x := by
  rw [nodesFold_lookup x (avalues nm) []]
  cases hx : alookup nm x with
  | some n =>
      have hmem : n ∈ (avalues nm).reverse :=
        List.mem_reverse.mpr (mem_avalues_of_alookup nm x n hx)
      have hnx : n.id = x := hid x n hx
      cases hf : (avalues nm).reverse.find? (fun v => v.id == x) with
      | none =>
          exfalso
          have hne := List.find?_eq_none.mp hf n hmem
          simp [hnx] at hne
      | some m =>
          have hpm := List.find?_some hf
          have hmm := List.mem_of_find?_eq_some hf
          have hmx : m.id = x := by simpa using hpm
          have hm2 : m ∈ avalues nm := List.mem_reverse.mp hmm
          rcases (avalues_mem_iff nm hnd m).mp hm2 with ⟨k, hk⟩
          have hkx : k = x := (hid k m hk).symm.trans hmx
          rw [hkx, hx] at hk
          injection hk with hh
          rw [hh]
  | none =>
      cases hf : (avalues nm).reverse.find? (fun v => v.id == x) with
      | none => rfl
      | some m =>
          exfalso
          have hpm := List.find?_some hf
          have hmm := List.mem_of_find?_eq_some hf
          have hmx : m.id = x := by simpa using hpm
          have hm2 : m ∈ avalues nm := List.mem_reverse.mp hmm
          rcases (avalues_mem_iff nm hnd m).mp hm2 with ⟨k, hk⟩
          have hkx : k = x := (hid k m hk).symm.trans hmx
          rw [hkx] at hk
          exact absurd (hk.symm.trans hx) (by simp)

theorem mem_filter_iff_of {α : Type} (l1 l2 : List α) (p1 p2 : α → Bool)
    (hmem : ∀ x : α, x ∈ l1 ↔ x ∈ l2) (hp : ∀ x, p1 x = p2 x) :
    ∀ x, x ∈ l1.filter p1 ↔ x ∈ l2.filter p2 := by
  intro x
  rw [List.mem_filter, List.mem_filter, hmem x, hp x]

theorem mem_connectedFold_iff_of (links1 links2 : List GraphLink)
    (init : List String) (hmem : ∀ li, li ∈ links1 ↔ li ∈ links2) :
    ∀ x, x ∈ links1.foldl
        (fun acc link => setAdd (setAdd acc link.source) link.target) init ↔
      x ∈ links2.foldl
        (fun acc link => setAdd (setAdd acc link.source) link.target) init := by
  intro x
  rw [mem_connectedFold, mem_connectedFold]
  constructor
  · rintro (h | ⟨li, hl, h⟩)
    · exact Or.inl h
    · exact Or.inr ⟨li, (hmem li).mp hl, h⟩
  · rintro (h | ⟨li, hl, h⟩)
    · exact Or.inl h
    · exact Or.inr ⟨li, (hmem li).mpr hl, h⟩

/-- Two final states with equal node and link lookups assemble to outputs
with the same meta, the same link set and the same node set. -/
theorem assembleOutput_congr (center : Work) (d l : Int)
    (st1 st2 : BuildState)
    (hnd1 : (akeys st1.nodeMap).Nodup) (hnd2 : (akeys st2.nodeMap).Nodup)
    (hid1 : ∀ k n, alookup st1.nodeMap k = some n → n.id = k)
    (hid2 : ∀ k n, alookup st2.nodeMap k = some n → n.id = k)
    (hlnd1 : (akeys st1.linkMap).Nodup) (hlnd2 : (akeys st2.linkMap).Nodup)
    (hnode : ∀ k, alookup st1.nodeMap k = alookup st2.nodeMap k)
    (hlink : ∀ k, alookup st1.linkMap k = alookup st2.linkMap k) :
    (assembleOutput center d l st1).meta =
      (assembleOutput center d l st2).meta ∧
    (∀ link, link ∈ (assembleOutput center d l st1).links ↔
      link ∈ (assembleOutput center d l st2).links) ∧
    (∀ n, n ∈ (assembleOutput center d l st1).nodes ↔
      n ∈ (assembleOutput center d l st2).nodes) := by
  have hpred : ∀ link : GraphLink,
      isLinkTemporallyConsistent link
        ((avalues st1.nodeMap).foldl (fun m n => aset m n.id n) []) =
      isLinkTemporallyConsistent link
        ((avalues st2.nodeMap).foldl (fun m n => aset m n.id n) []) := by
    intro link
    unfold isLinkTemporallyConsistent
    rw [rebuild_lookup st1.nodeMap hnd1 hid1 link.source,
      rebuild_lookup st1.nodeMap hnd1 hid1 link.target,
      rebuild_lookup st2.nodeMap hnd2 hid2 link.source,
      rebuild_lookup st2.nodeMap hnd2 hid2 link.target,
      hnode link.source, hnode link.target]
  have hvl : ∀ li : GraphLink,
      li ∈ avalues st1.linkMap ↔ li ∈ avalues st2.linkMap := by
    intro li
    rw [avalues_mem_iff st1.linkMap hlnd1 li,
      avalues_mem_iff st2.linkMap hlnd2 li]
    constructor
    · rintro ⟨k, hk⟩
      exact ⟨k, (hlink k).symm.trans hk⟩
    · rintro ⟨k, hk⟩
      exact ⟨k, (hlink k).trans hk⟩
  have hvn : ∀ n : GraphNode,
      n ∈ avalues st1.nodeMap ↔ n ∈ avalues st2.nodeMap := by
    intro n
    rw [avalues_mem_iff st1.nodeMap hnd1 n,
      avalues_mem_iff st2.nodeMap hnd2 n]
    constructor
    · rintro ⟨k, hk⟩
      exact ⟨k, (hnode k).symm.trans hk⟩
    · rintro ⟨k, hk⟩
      exact ⟨k, (hnode k).trans hk⟩
  have hlinks := mem_filter_iff_of (avalues st1.linkMap)
    (avalues st2.linkMap)
    (fun link => isLinkTemporallyConsistent link
      ((avalues st1.nodeMap).foldl (fun m n => aset m n.id n) []))
    (fun link => isLinkTemporallyConsistent link
      ((avalues st2.nodeMap).foldl (fun m n => aset m n.id n) []))
    hvl hpred
  have hconn := mem_connectedFold_iff_of
    ((avalues st1.linkMap).filter (fun link => isLinkTemporallyConsistent link
      ((avalues st1.nodeMap).foldl (fun m n => aset m n.id n) [])))
    ((avalues st2.linkMap).filter (fun link => isLinkTemporallyConsistent link
      ((avalues st2.nodeMap).foldl (fun m n => aset m n.id n) [])))
    [center.id] hlinks
  have hnodes := mem_filter_iff_of (avalues st1.nodeMap)
    (avalues st2.nodeMap)
    (fun n => decide (n.id ∈
      ((avalues st1.linkMap).filter (fun link =>
        isLinkTemporallyConsistent link
          ((avalues st1.nodeMap).foldl (fun m n => aset m n.id n) []))).foldl
        (fun acc link => setAdd (setAdd acc link.source) link.target)
        [center.id]))
    (fun n => decide (n.id ∈
      ((avalues st2.linkMap).filter (fun link =>
        isLinkTemporallyConsistent link
          ((avalues st2.nodeMap).foldl (fun m n => aset m n.id n) []))).foldl
        (fun acc link => setAdd (setAdd acc link.source) link.target)
        [center.id]))
    hvn (fun n => decide_eq_decide.mpr (hconn n.id))
  exact ⟨rfl, hlinks, hnodes⟩

/-- C8 amended: `buildGraph` is deterministic given *mutually consistent*
provider responses.  When every record any fetch channel returns is the
single canonical record of its id, two successful runs with the same seed,
depth and limit produce the same meta, the same link set and the same node
set regardless of which concurrently launched side completes first.  (The
consistency hypothesis is necessary: see the counterexample, where the
batch and citer channels disagree about one work's year and the two
completion orders produce different link sets.) -/
theorem c8_amended_consistent_determinism (p : Provider)
    (canon : String → Work) (sched1 sched2 : Schedule) (i : String)
    (d l : Option String) (out1 out2 : GraphOutput)
    (tr1 tr2 : List FetchEvent)
    (hcons : Consistent p canon)
    (h1 : buildGraphT p sched1 i d l = (.ok out1, tr1))
    (h2 : buildGraphT p sched2 i d l = (.ok out2, tr2)) :
    out1.meta = out2.meta ∧
    (∀ link, link ∈ out1.links ↔ link ∈ out2.links) ∧
    (∀ n, n ∈ out1.nodes ↔ n ∈ out2.nodes) := by
  obtain ⟨wid1, center1, hwid1, hc1, hout1⟩ :=
    buildGraphT_ok_elim p sched1 i d l out1 tr1 h1
  obtain ⟨wid2, center2, hwid2, hc2, hout2⟩ :=
    buildGraphT_ok_elim p sched2 i d l out2 tr2 h2
  rw [hwid1] at hwid2
  injection hwid2 with hwid
  subst hwid
  rw [hc1] at hc2
  injection hc2 with hcen
  subst hcen
  subst hout1
  subst hout2
  have hinv1 := runSides_stInv p sched1 center1 wid1
    (parseGraphParams d l).1.toNat (parseGraphParams d l).2.toNat
  have hinv2 := runSides_stInv p sched2 center1 wid1
    (parseGraphParams d l).1.toNat (parseGraphParams d l).2.toNat
  have hlu := runSides_lookup_eq p canon hcons center1 wid1 hc1
    (parseGraphParams d l).1.toNat (parseGraphParams d l).2.toNat
    sched1 sched2
  exact assembleOutput_congr center1 (parseGraphParams d l).1
    (parseGraphParams d l).2
    (runSides p sched1 center1 wid1 (parseGraphParams d l).1.toNat
      (parseGraphParams d l).2.toNat)
    (runSides p sched2 center1 wid1 (parseGraphParams d l).1.toNat
      (parseGraphParams d l).2.toNat)
    hinv1.1.1 hinv2.1.1
    (fun k n hk => (hinv1.1.2.1 k n hk).1)
    (fun k n hk => (hinv2.1.2.1 k n hk).1)
    hinv1.2.1 hinv2.2.1 hlu.1 hlu.2

/-- The output of the `p8` run with the references side completing first
(depth 1, limit 20). -/
def c8Out1 : GraphOutput :=
  (buildGraph p8 .referencesFirst "W1000" (some "1")
    (some "20")).toOption.getD default

/-- The output of the `p8` run with the citations side completing first
(depth 1, limit 20). -/
def c8Out2 : GraphOutput :=
  (buildGraph p8 .citationsFirst "W1000" (some "1")
    (some "20")).toOption.getD default

set_option maxRecDepth 40000 in
/-- C8 counterexample: with identical inputs and identical provider
responses for every fetch (`p8` answers each request the same way in both
runs), the completion order of the two concurrently launched sides changes
the output: when the references side completes first, the final node record
for `A` carries the citer channel's year 2005 and the re-validation keeps
only the `cited_by` link; in the other order it keeps only the `references`
link.  The link sets (and node sets) of the two runs differ. -/
theorem c8_completion_order_changes_output :
    (buildGraph p8 .referencesFirst "W1000" (some "1") (some "20")).toOption
      = some c8Out1 ∧
    (buildGraph p8 .citationsFirst "W1000" (some "1") (some "20")).toOption
      = some c8Out2 ∧
    (⟨CID, "A", .references, .backward⟩ : GraphLink) ∈ c8Out2.links ∧
    (⟨CID, "A", .references, .backward⟩ : GraphLink) ∉ c8Out1.links ∧
    c8Out1.nodes ≠ c8Out2.nodes := by
  refine ⟨?_, ?_, ?_, ?_, ?_⟩ <;> decide

/-- The canonical record function of the consistent witness provider. -/
def canonW : String → Work := fun x =>
  if x = CID then mkWork CID (some 2000) 0 ["A"]
  else if x = "A" then mkWork "A" (some 1995) 3 []
  else if x = "B" then mkWork "B" (some 2005) 2 []
  else mkWork "Z" none 0 []

/-- A provider all of whose channels answer with the canonical records:
the seed references `A` and is cited by `B`. -/
def pConsistent : Provider :=
  { getWorkById := fun x => some (canonW x),
    getWorksByIds := fun ids =>
      (ids.filter (fun x => x == CID || x == "A" || x == "B")).map canonW,
    getCitingWorks := fun x _ => if x = CID then [canonW "B"] else [] }

theorem pConsistent_consistent : Consistent pConsistent canonW := by
  refine ⟨?_, ?_, ?_, ?_⟩
  · intro x w hw
    have hw2 : some (canonW x) = some w := hw
    injection hw2 with hh
    subst hh
    by_cases h1 : x = CID
    · subst h1; decide
    · by_cases h2 : x = "A"
      · subst h2; decide
      · by_cases h3 : x = "B"
        · subst h3; decide
        · rw [show canonW x = mkWork "Z" none 0 [] from by
            simp [canonW, h1, h2, h3]]
          decide
  · intro ids w hw
    have hw2 : w ∈ (ids.filter
        (fun x => x == CID || x == "A" || x == "B")).map canonW := hw
    rcases List.mem_map.mp hw2 with ⟨x, hx, hwx⟩
    have hxm := List.of_mem_filter hx
    subst hwx
    simp only [Bool.or_eq_true, beq_iff_eq] at hxm
    rcases hxm with (h | h) | h <;> (subst h; decide)
  · intro x lim w hw
    have hw2 : w ∈ (if x = CID then [canonW "B"] else []) := hw
    by_cases hx : x = CID
    · rw [if_pos hx] at hw2
      have hb := List.mem_singleton.mp hw2
      subst hb
      decide
    · rw [if_neg hx] at hw2
      exact absurd hw2 (by simp)
  · intro x
    by_cases h1 : x = CID
    · subst h1; decide
    · by_cases h2 : x = "A"
      · subst h2; decide
      · by_cases h3 : x = "B"
        · subst h3; decide
        · rw [show canonW x = mkWork "Z" none 0 [] from by
            simp [canonW, h1, h2, h3]]
          decide

/-- The consistent-provider run with the references side completing first
(depth 2, limit 20). -/
def c8wRun1 : Except BuildErr GraphOutput × List FetchEvent :=
  buildGraphT pConsistent .referencesFirst "W1000" (some "2") (some "20")

/-- The consistent-provider run with the citations side completing first
(depth 2, limit 20). -/
def c8wRun2 : Except BuildErr GraphOutput × List FetchEvent :=
  buildGraphT pConsistent .citationsFirst "W1000" (some "2") (some "20")

def c8wOut1 : GraphOutput := c8wRun1.1.toOption.getD default

def c8wOut2 : GraphOutput := c8wRun2.1.toOption.getD default

set_option maxRecDepth 40000 in
theorem c8_amended_witness :
    c8wOut1.meta = c8wOut2.meta ∧
    ((⟨CID, "B", LinkType.cited_by, Direction.forward⟩ : GraphLink) ∈
        c8wOut1.links ↔
      (⟨CID, "B", LinkType.cited_by, Direction.forward⟩ : GraphLink) ∈
        c8wOut2.links) := by
  have h1 : buildGraphT pConsistent .referencesFirst "W1000" (some "2")
      (some "20") = (.ok c8wOut1, c8wRun1.2) := by decide
  have h2 : buildGraphT pConsistent .citationsFirst "W1000" (some "2")
      (some "20") = (.ok c8wOut2, c8wRun2.2) := by decide
  have hm := c8_amended_consistent_determinism pConsistent canonW
    .referencesFirst .citationsFirst "W1000" (some "2") (some "20")
    c8wOut1 c8wOut2 c8wRun1.2 c8wRun2.2 pConsistent_consistent h1 h2
  exact ⟨hm.1, hm.2.1 _⟩
